import Mathlib

/-!
# jet: the `map` constructor, the default-function table and rendering

Part one is a shallow embedding of `default.go` (package `jet`): the dynamic
values a template call can hand to a default function, Go's
`map[string]interface{}` as an association list with unique keys, and
`newMap` with its `for` loop run index by index, so that an out-of-range
access, or a `fmt.Sprint` that does not return, is observable.  Part two
models, from the specification, the parts of the engine that the tests in
`eval_test.go` exercise: arithmetic expressions, `if`, and
`block`/`yield`/`extends`.
-/

deriving instance DecidableEq for Except

namespace Jet

/-! ## Dynamic values and `fmt.Sprint` -/

/-- A Go `float64`: its IEEE 754 bit pattern and the text Go prints for it.
Formatting a float is the host's business; the text is taken as given, not
computed from the bits. -/
structure Float64 where
  bits : Nat
  text : String
  deriving DecidableEq, Repr

/-- The kind of a host value that is not nil, a boolean, a number or a
string: a slice or array, a map, or anything else (a struct, a pointer, a
function, ...). -/
inductive HostKind where
  | sequence
  | mapping
  | object
  deriving DecidableEq, Repr

/-- What `fmt.Sprint` does with a host value.  It returns a text; or a
`String`/`Error` method of the value panics and printing the panic value
panics again, and `fmt` raises that panic anew; or the value is a slice or a
map that contains itself, and printing recurses until the stack overflows. -/
inductive Printed where
  | text (s : String)
  | panics (msg : String)
  | overflows
  deriving DecidableEq, Repr

/-- A Go `interface{}` value as the template engine can pass it to a default
function.  `host kind tag size printed` stands for any host value that is not
nil, a boolean, a number or a string: `tag` identifies the value, `size` is
its number of elements (for a sequence or a mapping) and `printed` is what
`fmt.Sprint` does with it. -/
inductive Value where
  | nil
  | bool (b : Bool)
  | int (n : Int)
  | float (x : Float64)
  | str (s : String)
  | host (kind : HostKind) (tag : Nat) (size : Nat) (printed : Printed)
  deriving DecidableEq, Repr

/-- How a run of `newMap` can end without returning.  `panic` is the explicit
`panic(msg)` statement, `indexOutOfRange` the runtime panic of a slice access
`values[i]` with `i ≥ len(values)`, `sprintPanic` a panic raised inside
`fmt.Sprint`, `stackOverflow` the fatal error of a `fmt.Sprint` that recurses
without end, and `outOfFuel` a loop that was still running when the iteration
budget of the model was used up. -/
inductive Failure where
  | panic (msg : String)
  | indexOutOfRange (index length : Nat)
  | sprintPanic (msg : String)
  | stackOverflow
  | outOfFuel
  deriving DecidableEq, Repr

/-- Go's `fmt.Sprint` on a single operand (the `%v` verb): the text it returns,
or the way it fails to return. -/
def Sprint : Value → Except Failure String
  | .nil => .ok "<nil>"
  | .bool true => .ok "true"
  | .bool false => .ok "false"
  | .int n => .ok (toString n)
  | .float x => .ok x.text
  | .str s => .ok s
  | .host _ _ _ (.text s) => .ok s
  | .host _ _ _ (.panics msg) => .error (.sprintPanic msg)
  | .host _ _ _ .overflows => .error .stackOverflow

/-! ## `map[string]interface{}` -/

/-- A Go `map[string]interface{}`: entries with pairwise distinct keys.  The
list order is the insertion order and carries no meaning for lookups. -/
abbrev GoMap := List (String × Value)

namespace GoMap

/-- The Go expression `make(map[string]interface{})`. -/
def make : GoMap := []

/-- The Go expression `m[k]` in its two-result form: the value and presence. -/
def get? : GoMap → String → Option Value
  | [], _ => none
  | (k', v') :: rest, k => if k' = k then some v' else get? rest k

/-- The Go statement `m[k] = v`: overwrite the entry of `k` or add one. -/
def set : GoMap → String → Value → GoMap
  | [], k, v => [(k, v)]
  | (k', v') :: rest, k, v =>
    if k' = k then (k, v) :: rest else (k', v') :: set rest k v

/-- The keys of the map. -/
def keys (m : GoMap) : List String := m.map Prod.fst

/-- The Go expression `len(m)`. -/
def len (m : GoMap) : Nat := m.length

end GoMap

/-! ## `newMap` -/

/-- The state of the `for` loop of `newMap`: the counter `i`, the map built so
far, and (ghost) the values `i` had at each execution of the body, oldest
first. -/
structure LoopState where
  i : Nat
  nmap : GoMap
  visited : List Nat
  deriving DecidableEq, Repr

/-- The slice access `values[i]`, which panics when `i` is out of range. -/
def index (values : List Value) (i : Nat) : Except Failure Value :=
  match values[i]? with
  | some v => .ok v
  | none => .error (.indexOutOfRange i values.length)

/-- One iteration: `nmap[fmt.Sprint(values[i])] = values[i + 1]` and then the
post statement `i += 2`.  The key is printed before the value is read. -/
def loopBody (values : List Value) (st : LoopState) : Except Failure LoopState :=
  match index values st.i with
  | .error e => .error e
  | .ok k =>
    match Sprint k with
    | .error e => .error e
    | .ok key =>
      match index values (st.i + 1) with
      | .error e => .error e
      | .ok v =>
        .ok { i := st.i + 2, nmap := st.nmap.set key v, visited := st.visited ++ [st.i] }

/-- The loop `for ; i < len(values); i += 2 { ... }` with an iteration budget. -/
def loop (values : List Value) : Nat → LoopState → Except Failure LoopState
  | fuel, st =>
    if st.i < values.length then
      match fuel with
      | 0 => .error .outOfFuel
      | fuel + 1 =>
        match loopBody values st with
        | .error e => .error e
        | .ok st' => loop values fuel st'
    else .ok st

/-- The message of the explicit panic of `newMap`. -/
def invalidArgsMsg : String := "new map: invalid number of arguments on call to map"

/-- The function `newMap` run to the end of its loop, ghost state included.
The budget `len(values)` is never used up (`loop_eq`, `loop_error`). -/
def newMapRun (values : List Value) : Except Failure LoopState :=
  if values.length % 2 > 0 then .error (.panic invalidArgsMsg)
  else loop values values.length { i := 0, nmap := GoMap.make, visited := [] }

/-- The function `newMap(values ...interface{}) map[string]interface{}`. -/
def newMap (values : List Value) : Except Failure GoMap :=
  match newMapRun values with
  | .error e => .error e
  | .ok st => .ok st.nmap

/-! ## Reference functions used to describe the result of the loop -/

/-- The string form of a value on which `fmt.Sprint` returns.  (On a value it
does not return on, which has no string form, this is the empty string.) -/
def keyText (v : Value) : String :=
  match Sprint v with
  | .ok s => s
  | .error _ => ""

/-- The key/value pairs of an argument list, in order: positions `0,1`, `2,3`, ... -/
def pairsOf : List Value → List (Value × Value)
  | k :: v :: rest => (k, v) :: pairsOf rest
  | _ => []

/-- Storing a list of pairs into a map, first pair first, each under the string
form of its key. -/
def storeAll : GoMap → List (Value × Value) → GoMap
  | m, [] => m
  | m, (k, v) :: ps => storeAll (m.set (keyText k) v) ps

/-- The indices `start, start + 2, ...`, `count` of them. -/
def evens (start count : Nat) : List Nat := (List.range count).map (fun j => start + 2 * j)

/-- The string forms of the keys of an argument list, in order: the arguments
at positions `0, 2, 4, ...` that are followed by a value, printed. -/
def pairKeys (values : List Value) : List String := (pairsOf values).map (fun p => keyText p.1)

/-- The argument list that supplies the given key/value pairs in order. -/
def flattenPairs : List (Value × Value) → List Value
  | [] => []
  | (k, v) :: ps => k :: v :: flattenPairs ps

/-! ## The default-function table -/

/-- A value stored in `defaultVariables`: a function of the Go standard
library, named by package and identifier, or a variadic function of this
package, given by its embedding. -/
inductive Callable where
  | stdlib (pkg name : String)
  | variadic (f : List Value → Except Failure GoMap)

/-- The package variable `defaultVariables`, entries in source order. -/
def defaultVariables : List (String × Callable) :=
  [ ("lower", .stdlib "strings" "ToLower"),
    ("upper", .stdlib "strings" "ToUpper"),
    ("hasPrefix", .stdlib "strings" "HasPrefix"),
    ("hasSuffix", .stdlib "strings" "HasSuffix"),
    ("repeat", .stdlib "strings" "Repeat"),
    ("replace", .stdlib "strings" "Replace"),
    ("map", .variadic newMap) ]

/-- The lookup `defaultVariables[name]`. -/
def lookupDefault (name : String) : Option Callable :=
  (defaultVariables.find? (fun e => e.1 == name)).map Prod.snd

/-! ## The template engine: expressions

The lexer, the parser and the evaluator are exercised by `eval_test.go` and
`parse_test.go`; their sources are not available.  What follows is their
behaviour as the specification words it, for the constructs the claims on
rendering are about: arithmetic over integer and floating-point literals with
unary minus and parentheses, `if`, `block`, `yield` and `extends`.  Comparison
and logical operators, calls, pipelines, `range`, `import` and `include` are
left out.
-/

/-- Modelled from the spec: the arithmetic binary operators `+ - * / %` of the
expression grammar (the parser and its AST are missing). -/
inductive BinOp where
  | add | sub | mul | div | mod
  deriving DecidableEq, Repr

/-- Modelled from the spec: the host's floating-point arithmetic, which the
missing evaluator uses and does not define: the conversion of an integer to a
float (the promotion of a mixed operation), negation and the binary
operations.  `none` where the host defines no result. -/
structure FloatOps where
  ofInt : Int → Option Float64
  neg : Float64 → Option Float64
  arith : BinOp → Float64 → Float64 → Option Float64

/-- Modelled from the spec: the tokens the missing lexer hands to the parser
inside an action, restricted to integer and floating-point literals, the
arithmetic operators and parentheses.  A literal token carries its value. -/
inductive Token where
  | num (n : Nat)
  | float (x : Float64)
  | plus | minus | star | slash | percent
  | lparen | rparen
  deriving DecidableEq, Repr

/-- Modelled from the spec: the expression variants of the missing AST that
the modelled constructs use: literal, the context `.`, identifier, field
access, unary negation and binary arithmetic. -/
inductive Expr where
  | lit (v : Value)
  | context
  | ident (name : String)
  | field (e : Expr) (name : String)
  | neg (e : Expr)
  | bin (op : BinOp) (l r : Expr)
  deriving DecidableEq, Repr

/-- Modelled from the spec: the binding strength of the missing parser's
operators, additive (`+ -`) below multiplicative (`* / %`). -/
def BinOp.prec : BinOp → Nat
  | .add => 1
  | .sub => 1
  | .mul => 2
  | .div => 2
  | .mod => 2

/-- Modelled from the spec: the binary operator a token of the missing lexer
stands for in operator position, if any. -/
def Token.binOp? : Token → Option BinOp
  | .plus => some .add
  | .minus => some .sub
  | .star => some .mul
  | .slash => some .div
  | .percent => some .mod
  | _ => none

mutual

/-- Modelled from the spec: the missing parser's primary level, here a
numeric literal or a parenthesized expression.  `fuel` bounds the depth of
the recursive descent. -/
def parsePrimary : Nat → List Token → Option (Expr × List Token)
  | 0, _ => none
  | fuel + 1, ts =>
    match ts with
    | .num n :: rest => some (.lit (.int n), rest)
    | .float x :: rest => some (.lit (.float x), rest)
    | .lparen :: rest =>
      match parseExpr fuel 1 rest with
      | some (e, .rparen :: rest') => some (e, rest')
      | _ => none
    | _ => none

/-- Modelled from the spec: the missing parser's unary level (`-`), which
binds tighter than every binary operator and looser than a primary. -/
def parseUnary : Nat → List Token → Option (Expr × List Token)
  | 0, _ => none
  | fuel + 1, ts =>
    match ts with
    | .minus :: rest =>
      match parseUnary fuel rest with
      | some (e, rest') => some (.neg e, rest')
      | none => none
    | _ => parsePrimary fuel ts

/-- Modelled from the spec: precedence climbing in the missing parser.
`parseExpr fuel minPrec` reads a unary operand and then every binary operator
of binding strength at least `minPrec` with its right operand. -/
def parseExpr : Nat → Nat → List Token → Option (Expr × List Token)
  | 0, _, _ => none
  | fuel + 1, minPrec, ts =>
    match parseUnary fuel ts with
    | some (lhs, rest) => climb fuel minPrec lhs rest
    | none => none

/-- Modelled from the spec: the loop of precedence climbing.  While the next
token is a binary operator of strength at least `minPrec`, its right operand
is read with the next higher minimum strength (operators of equal strength so
group to the left) and joined to what was read before. -/
def climb : Nat → Nat → Expr → List Token → Option (Expr × List Token)
  | 0, _, _, _ => none
  | fuel + 1, minPrec, lhs, ts =>
    match ts with
    | [] => some (lhs, [])
    | t :: rest =>
      match t.binOp? with
      | none => some (lhs, ts)
      | some op =>
        if minPrec ≤ op.prec then
          match parseExpr fuel (op.prec + 1) rest with
          | some (rhs, rest') => climb fuel minPrec (.bin op lhs rhs) rest'
          | none => none
        else some (lhs, ts)

end

/-- Modelled from the spec: the missing parser on the tokens of one action.
The whole token list must be one expression; anything else is a parse error
(`none`).  The depth budget `4 * length + 1` suffices for every arithmetic
expression (`parseExpression_tokens`). -/
def parseExpression (ts : List Token) : Option Expr :=
  match parseExpr (4 * ts.length + 1) 1 ts with
  | some (e, []) => some e
  | _ => none

/-- Modelled from the spec: the error kinds of the missing evaluator that the
modelled constructs can raise.  Two are not in the taxonomy of the
specification, which does not say what happens there, and the model stops
with them: `divisionByZero`, an integer division by zero, and `hostFailure`,
a host value that cannot be turned into text. -/
inductive EvalError where
  | parseError
  | unresolvedTemplate (name : String)
  | undefinedBlock (name : String)
  | undefinedField (name : String)
  | typeMismatch
  | divisionByZero
  | hostFailure (f : Failure)
  | recursionLimitExceeded
  deriving DecidableEq, Repr

/-- Modelled from the spec: what an expression of the missing evaluator is
evaluated against: the caller-supplied variables, the context value `.`, the
host value bridge that resolves a named field of an object, and the host's
floating-point arithmetic. -/
structure Env where
  vars : List (String × Value)
  context : Value
  resolveField : Value → String → Option Value
  floatOps : FloatOps

/-- The result of a floating-point operation of the host as a value; an
operation the host does not define is a type mismatch. -/
def floatResult : Option Float64 → Except EvalError Value
  | some z => .ok (.float z)
  | none => .error .typeMismatch

/-- Modelled from the spec: binary arithmetic of the missing evaluator on two
values.  Two integers give an integer (the specification's `Int`, of no stated
width: unbounded here), the quotient truncated toward zero and the remainder
with the sign of the dividend; an operation with a float operand is done in
floats, an integer operand being promoted first; `+` concatenates two strings;
every other operand kind is a type mismatch. -/
def evalBin (fl : FloatOps) : BinOp → Value → Value → Except EvalError Value
  | .add, .int a, .int b => .ok (.int (a + b))
  | .add, .str a, .str b => .ok (.str (a ++ b))
  | .sub, .int a, .int b => .ok (.int (a - b))
  | .mul, .int a, .int b => .ok (.int (a * b))
  | .div, .int a, .int b => if b = 0 then .error .divisionByZero else .ok (.int (Int.tdiv a b))
  | .mod, .int a, .int b => if b = 0 then .error .divisionByZero else .ok (.int (Int.tmod a b))
  | op, .float x, .float y => floatResult (fl.arith op x y)
  | op, .int a, .float y => floatResult ((fl.ofInt a).bind (fun x => fl.arith op x y))
  | op, .float x, .int b => floatResult ((fl.ofInt b).bind (fun y => fl.arith op x y))
  | _, _, _ => .error .typeMismatch

/-- Modelled from the spec: expression evaluation in the missing evaluator. -/
def evalExpr (env : Env) : Expr → Except EvalError Value
  | .lit v => .ok v
  | .context => .ok env.context
  | .ident name =>
    match env.vars.lookup name with
    | some v => .ok v
    | none => .error (.undefinedField name)
  | .field e name =>
    match evalExpr env e with
    | .error err => .error err
    | .ok v =>
      match env.resolveField v name with
      | some r => .ok r
      | none => .error (.undefinedField name)
  | .neg e =>
    match evalExpr env e with
    | .error err => .error err
    | .ok (.int a) => .ok (.int (-a))
    | .ok (.float x) => floatResult (env.floatOps.neg x)
    | .ok _ => .error .typeMismatch
  | .bin op l r =>
    match evalExpr env l with
    | .error err => .error err
    | .ok a =>
      match evalExpr env r with
      | .error err => .error err
      | .ok b => evalBin env.floatOps op a b

/-- Modelled from the spec: the string an action of the missing evaluator
emits for a value: numbers in decimal, booleans as `true`/`false`, nil as the
empty string, a host value as the host prints it. -/
def stringify : Value → Except EvalError String
  | .nil => .ok ""
  | .bool true => .ok "true"
  | .bool false => .ok "false"
  | .int n => .ok (toString n)
  | .float x => .ok x.text
  | .str s => .ok s
  | .host _ _ _ (.text s) => .ok s
  | .host _ _ _ (.panics msg) => .error (.hostFailure (.sprintPanic msg))
  | .host _ _ _ .overflows => .error (.hostFailure .stackOverflow)

/-- Modelled from the spec: truthiness in the missing evaluator: nil, `false`,
a zero number (the integer `0`, the floats `+0` and `-0`), the empty string,
an empty sequence and an empty mapping are falsy, everything else is truthy. -/
def truthy : Value → Bool
  | .nil => false
  | .bool b => b
  | .int n => n != 0
  | .float x => x.bits != 0 && x.bits != 2 ^ 63
  | .str s => s != ""
  | .host .sequence _ size _ => size != 0
  | .host .mapping _ size _ => size != 0
  | .host .object _ _ _ => true

/-! ### Arithmetic expressions as written -/

/-- An arithmetic expression as it is written and conventionally read: operands
are literals, negations, parenthesized expressions or binary operations. -/
inductive Arith where
  | num (n : Nat)
  | float (x : Float64)
  | neg (a : Arith)
  | paren (a : Arith)
  | bin (op : BinOp) (l r : Arith)
  deriving DecidableEq, Repr

/-- A number: the conventional value of an arithmetic expression. -/
inductive Number where
  | int (n : Int)
  | float (x : Float64)
  deriving DecidableEq, Repr

/-- The decimal form of a number. -/
def Number.decimal : Number → String
  | .int n => toString n
  | .float x => x.text

/-- The number as a value of the engine. -/
def Number.toValue : Number → Value
  | .int n => .int n
  | .float x => .float x

namespace Arith

/-- The sign that writes a binary operator. -/
def symbol : BinOp → Token
  | .add => .plus
  | .sub => .minus
  | .mul => .star
  | .div => .slash
  | .mod => .percent

/-- How tightly a binary operator binds by convention: `*`, `/` and `%` above
`+` and `-`. -/
def strength : BinOp → Nat
  | .add => 1
  | .sub => 1
  | .mul => 2
  | .div => 2
  | .mod => 2

/-- The tokens of an expression, left to right. -/
def tokens : Arith → List Token
  | num n => [.num n]
  | float x => [.float x]
  | neg a => .minus :: tokens a
  | paren a => .lparen :: tokens a ++ [.rparen]
  | bin op l r => tokens l ++ symbol op :: tokens r

/-- How tightly the outermost construct binds: a binary operation as its
operator, a negation above every binary operator, a literal or a
parenthesized expression above that. -/
def level : Arith → Nat
  | num _ => 4
  | float _ => 4
  | paren _ => 4
  | neg _ => 3
  | bin op _ _ => strength op

/-- The tree is the conventional reading of its tokens: the operand of a
negation is a negation, a literal or in parentheses; the left operand of a
binary operator binds at least as tightly as the operator (equal strength
groups to the left), the right operand strictly tighter; inside parentheses
anything goes. -/
def conventional : Arith → Bool
  | num _ => true
  | float _ => true
  | neg a => decide (3 ≤ level a) && conventional a
  | paren a => conventional a
  | bin op l r =>
    decide (strength op ≤ level l) && decide (strength op < level r) &&
      conventional l && conventional r

/-- The conventional result of a binary operation on two numbers, `none` where
there is none (an integer division by zero, a float operation the host does
not define). -/
def apply (fl : FloatOps) : BinOp → Number → Number → Option Number
  | .add, .int x, .int y => some (.int (x + y))
  | .sub, .int x, .int y => some (.int (x - y))
  | .mul, .int x, .int y => some (.int (x * y))
  | .div, .int x, .int y => if y = 0 then none else some (.int (Int.tdiv x y))
  | .mod, .int x, .int y => if y = 0 then none else some (.int (Int.tmod x y))
  | op, .float x, .float y => (fl.arith op x y).map .float
  | op, .int a, .float y => ((fl.ofInt a).bind (fun x => fl.arith op x y)).map .float
  | op, .float x, .int b => ((fl.ofInt b).bind (fun y => fl.arith op x y)).map .float

/-- The conventional value of the expression under the host's float
arithmetic, `none` where it has none. -/
def value (fl : FloatOps) : Arith → Option Number
  | num n => some (.int n)
  | float x => some (.float x)
  | neg a =>
    match value fl a with
    | some (.int x) => some (.int (-x))
    | some (.float x) => (fl.neg x).map .float
    | none => none
  | paren a => value fl a
  | bin op l r =>
    match value fl l, value fl r with
    | some x, some y => apply fl op x y
    | _, _ => none

/-- The syntax tree of the expression: parentheses leave no node. -/
def ast : Arith → Expr
  | num n => .lit (.int n)
  | float x => .lit (.float x)
  | neg a => .neg (ast a)
  | paren a => ast a
  | bin op l r => .bin op (ast l) (ast r)

end Arith

/-- The token list `rest` does not begin with a binary operator of binding
strength `q` or more: precedence climbing at minimum strength `q` stops in
front of it. -/
def stopsAt (q : Nat) (rest : List Token) : Prop :=
  ∀ t op, rest.head? = some t → t.binOp? = some op → op.prec < q

/-! ## The template engine: nodes, templates and execution -/

/-- Modelled from the spec: the node kinds of the missing AST that the claims
on rendering use.  An `if` holds its condition, its then-branch, the ordered
`else if` pairs and the optional else-branch; a `block` holds its name, its
argument expression and its body; a `yield` holds a block name and an
argument expression. -/
inductive Node where
  | text (s : String)
  | comment (s : String)
  | action (e : Expr)
  | ifNode (cond : Expr) (thenBranch : List Node) (elseIfs : List (Expr × List Node))
      (elseBranch : Option (List Node))
  | block (name : String) (arg : Option Expr) (body : List Node)
  | yield (name : String) (arg : Expr)

/-- Modelled from the spec: a block definition as the missing parser records
it in the block table of a template. -/
structure BlockDef where
  arg : Option Expr
  body : List Node

/-- Modelled from the spec: a parsed template of the missing engine: its name,
its root AST, the name it `extends` (if any) and the blocks it defines. -/
structure Template where
  name : String
  root : List Node
  parent : Option String
  blocks : List (String × BlockDef)

/-- Modelled from the spec: the registry of the missing engine, as the list of
its templates. -/
abbrev TemplateSet := List Template

/-- Modelled from the spec: `getTemplate` of the missing registry. -/
def getTemplate (set : TemplateSet) (name : String) : Option Template :=
  set.find? (fun t => t.name == name)

/-- Modelled from the spec: the `extends` chain of a template in the missing
registry, the template itself first and the base last.  A parent that is not
registered, or a name met twice on the way, is an unresolved template. -/
def extendsChain (set : TemplateSet) : Nat → List String → Template →
    Except EvalError (List Template)
  | 0, _, _ => .error .recursionLimitExceeded
  | fuel + 1, seen, t =>
    match t.parent with
    | none => .ok [t]
    | some p =>
      if p ∈ t.name :: seen then .error (.unresolvedTemplate p)
      else
        match getTemplate set p with
        | none => .error (.unresolvedTemplate p)
        | some pt =>
          match extendsChain set fuel (t.name :: seen) pt with
          | .ok chain => .ok (t :: chain)
          | .error e => .error e

/-- Modelled from the spec: override resolution in the missing evaluator:
walk the chain from the most derived template to the base and take the first
definition of the block. -/
def lookupBlock : List Template → String → Option BlockDef
  | [], _ => none
  | t :: rest, name =>
    match t.blocks.lookup name with
    | some b => some b
    | none => lookupBlock rest name

/-- Running a node list in order, each node appending to the output. -/
def runList (step : Node → String → Except EvalError String) :
    List Node → String → Except EvalError String
  | [], out => .ok out
  | n :: ns, out =>
    match step n out with
    | .ok out' => runList step ns out'
    | .error e => .error e

/-- Modelled from the spec: the branch an `if` of the missing evaluator
executes: conditions are evaluated in order and the first truthy one decides;
with none truthy it is the else-branch, if there is one. -/
def selectBranch (env : Env) :
    List (Expr × List Node) → Option (List Node) → Except EvalError (Option (List Node))
  | [], elseBranch => .ok elseBranch
  | (cond, body) :: rest, elseBranch =>
    match evalExpr env cond with
    | .error e => .error e
    | .ok v => if truthy v then .ok (some body) else selectBranch env rest elseBranch

/-- Modelled from the spec: node execution in the missing evaluator, for a
render whose `extends` chain is `chain`.  `depth` is the recursion depth
still allowed; past it the render fails with `recursionLimitExceeded`.  The
result is the output text after the node. -/
def execNode (chain : List Template) : Nat → Env → Node → String → Except EvalError String
  | 0, _, _, _ => .error .recursionLimitExceeded
  | depth + 1, env, node, out =>
    match node with
    | .text s => .ok (out ++ s)
    | .comment _ => .ok out
    | .action e =>
      match evalExpr env e with
      | .error err => .error err
      | .ok v =>
        match stringify v with
        | .ok text => .ok (out ++ text)
        | .error err => .error err
    | .ifNode cond thenBranch elseIfs elseBranch =>
      match selectBranch env ((cond, thenBranch) :: elseIfs) elseBranch with
      | .error err => .error err
      | .ok none => .ok out
      | .ok (some body) => runList (execNode chain depth env) body out
    | .block name arg body =>
      let blk := (lookupBlock chain name).getD { arg := arg, body := body }
      match arg with
      | none => runList (execNode chain depth env) blk.body out
      | some e =>
        match evalExpr env e with
        | .error err => .error err
        | .ok v => runList (execNode chain depth { env with context := v }) blk.body out
    | .yield name arg =>
      match lookupBlock chain name with
      | none => .error (.undefinedBlock name)
      | some blk =>
        match evalExpr env arg with
        | .error err => .error err
        | .ok v => runList (execNode chain depth { env with context := v }) blk.body out

/-- Modelled from the spec: `execute` of the missing evaluator: the entry
point is the top level of the base of the `extends` chain, and the blocks of
the derived templates override those of the base. -/
def execute (set : TemplateSet) (t : Template) (env : Env) (limit : Nat) :
    Except EvalError String :=
  match extendsChain set (set.length + 1) [] t with
  | .error e => .error e
  | .ok chain =>
    match chain.getLast? with
    | none => .ok ""
    | some entry => runList (execNode chain limit env) entry.root ""

/-- The template that consists of the single action `{{ e }}`. -/
def actionTemplate (e : Expr) : Template :=
  { name := "action", root := [.action e], parent := none, blocks := [] }

/-- Modelled from the spec: parsing and rendering a template that is one
action, given by the tokens between its delimiters. -/
def renderAction (env : Env) (limit : Nat) (ts : List Token) : Except EvalError String :=
  match parseExpression ts with
  | none => .error .parseError
  | some e => execute [actionTemplate e] (actionTemplate e) env limit

/-! ### The templates of `TestEvalBlockYieldIncludeNode` -/

/-- The template `Block_simple` of `eval_test.go`:
`{{block hello "Buddy" }}Hello {{ . }}{{end}},{{yield hello user.Name}}`. -/
def blockSimple : Template :=
  { name := "Block_simple"
    root := [.block "hello" (some (.lit (.str "Buddy"))) [.text "Hello ", .action .context],
             .text ",",
             .yield "hello" (.field (.ident "user") "Name")]
    parent := none
    blocks := [("hello", { arg := some (.lit (.str "Buddy")),
                           body := [.text "Hello ", .action .context] })] }

/-- The template `Block_Extends` of `eval_test.go`:
`{{extends "Block_simple"}}{{block hello "Buddy" }}Hey {{ . }}{{end}}`. -/
def blockExtends : Template :=
  { name := "Block_Extends"
    root := [.block "hello" (some (.lit (.str "Buddy"))) [.text "Hey ", .action .context]]
    parent := some "Block_simple"
    blocks := [("hello", { arg := some (.lit (.str "Buddy")),
                           body := [.text "Hey ", .action .context] })] }

/-- The float facts the tests of `eval_test.go` rely on, as a host arithmetic:
`float64(1) = 1`, `float64(2) = 2`, `1 * 1.23 = 1.23` and `2 * 12.5 = 25`, each
float by its IEEE 754 bits and its printed text.  No other operation is
defined. -/
def testFloatOps : FloatOps :=
  { ofInt := fun n =>
      if n = 1 then some ⟨0x3ff0000000000000, "1"⟩
      else if n = 2 then some ⟨0x4000000000000000, "2"⟩
      else none
    neg := fun _ => none
    arith := fun op x y =>
      if op = .mul ∧ x = ⟨0x3ff0000000000000, "1"⟩ ∧ y = ⟨0x3ff3ae147ae147ae, "1.23"⟩ then
        some ⟨0x3ff3ae147ae147ae, "1.23"⟩
      else if op = .mul ∧ x = ⟨0x4000000000000000, "2"⟩ ∧ y = ⟨0x4029000000000000, "12.5"⟩ then
        some ⟨0x4039000000000000, "25"⟩
      else none }

/-- The variables of the test: `user` is the object `&User{"José Santos",
"email@example.com"}`, whose fields the host value bridge resolves. -/
def testEnv : Env :=
  { vars := [("user", .host .object 0 0 (.text "&{José Santos email@example.com}"))]
    context := .nil
    resolveField := fun v name =>
      if v = .host .object 0 0 (.text "&{José Santos email@example.com}") then
        if name = "Name" then some (.str "José Santos")
        else if name = "Email" then some (.str "email@example.com")
        else none
      else none
    floatOps := testFloatOps }

/-- Variables for conditions: an empty slice `xs`, a slice `ys` of two
elements, an empty map `m`, the integer `zero` and the float `fzero`. -/
def conditionEnv : Env :=
  { vars := [("xs", .host .sequence 1 0 (.text "[]")),
             ("ys", .host .sequence 2 2 (.text "[1 2]")),
             ("m", .host .mapping 3 0 (.text "map[]")),
             ("zero", .int 0),
             ("fzero", .float ⟨0, "0"⟩)]
    context := .nil
    resolveField := fun _ _ => none
    floatOps := testFloatOps }

/-! # Lemmas and theorems -/

/-! ## Lemmas on maps -/

namespace GoMap

theorem get?_set_self (m : GoMap) (k : String) (v : Value) : (m.set k v).get? k = some v := by
  induction m with
  | nil => simp [set, get?]
  | cons e rest ih =>
    obtain ⟨k', v'⟩ := e
    by_cases h : k' = k
    · simp [set, get?, h]
    · simp [set, get?, h, ih]

theorem get?_set_ne (m : GoMap) {k s : String} (v : Value) (h : s ≠ k) :
    (m.set k v).get? s = m.get? s := by
  induction m with
  | nil => simp [set, get?, Ne.symm h]
  | cons e rest ih =>
    obtain ⟨k', v'⟩ := e
    by_cases hk : k' = k
    · subst hk
      simp [set, get?, Ne.symm h]
    · by_cases hs : k' = s
      · subst hs
        simp [set, get?, hk]
      · simp [set, get?, hk, hs, ih]

theorem mem_keys_set (m : GoMap) (k s : String) (v : Value) :
    s ∈ (m.set k v).keys ↔ s = k ∨ s ∈ m.keys := by
  induction m with
  | nil => simp [set, keys]
  | cons e rest ih =>
    obtain ⟨k', v'⟩ := e
    by_cases hk : k' = k
    · subst hk
      simp [set, keys]
    · have ih' : s ∈ List.map Prod.fst (set rest k v) ↔ s = k ∨ s ∈ List.map Prod.fst rest := ih
      simp only [set, hk, keys, if_false, List.map_cons, List.mem_cons, ih']
      tauto

theorem nodup_keys_set (m : GoMap) (k : String) (v : Value) (h : m.keys.Nodup) :
    (m.set k v).keys.Nodup := by
  induction m with
  | nil => simp [set, keys]
  | cons e rest ih =>
    obtain ⟨k', v'⟩ := e
    have hrest : (keys rest).Nodup := (List.nodup_cons.mp h).2
    have hk' : k' ∉ keys rest := (List.nodup_cons.mp h).1
    by_cases hk : k' = k
    · subst hk
      simpa [set, keys] using h
    · have hnot : k' ∉ (set rest k v).keys := by
        rw [mem_keys_set]
        rintro (h1 | h1)
        · exact hk h1
        · exact hk' h1
      have : (keys ((k', v') :: set rest k v)).Nodup := List.nodup_cons.mpr ⟨hnot, ih hrest⟩
      simpa [set, hk] using this

theorem mem_keys_iff_get? (m : GoMap) (s : String) : s ∈ m.keys ↔ (m.get? s).isSome = true := by
  induction m with
  | nil => simp [keys, get?]
  | cons e rest ih =>
    obtain ⟨k', v'⟩ := e
    have ih' : s ∈ List.map Prod.fst rest ↔ (get? rest s).isSome = true := ih
    by_cases hs : k' = s
    · simp [keys, get?, hs]
    · simp only [keys, get?, hs, if_false, List.map_cons, List.mem_cons, ih']
      constructor
      · rintro (h | h)
        · exact absurd h.symm hs
        · exact h
      · exact Or.inr

end GoMap

/-! ## String forms -/

theorem keyText_of_Sprint {k : Value} {s : String} (h : Sprint k = .ok s) : keyText k = s := by
  simp [keyText, h]

theorem Sprint_of_printable {k : Value} (h : ∃ s, Sprint k = .ok s) :
    Sprint k = .ok (keyText k) := by
  obtain ⟨s, hs⟩ := h
  simp [keyText, hs]

theorem Sprint_iff_keyText {k : Value} (h : ∃ s, Sprint k = .ok s) (s : String) :
    Sprint k = .ok s ↔ keyText k = s := by
  constructor
  · exact keyText_of_Sprint
  · intro hs
    rw [Sprint_of_printable h, hs]

/-! ## What `storeAll` leaves in the map -/

theorem storeAll_append (m : GoMap) (ps qs : List (Value × Value)) :
    storeAll m (ps ++ qs) = storeAll (storeAll m ps) qs := by
  induction ps generalizing m with
  | nil => rfl
  | cons p ps ih =>
    obtain ⟨k, v⟩ := p
    simp [storeAll, ih]

theorem storeAll_get?_of_absent (m : GoMap) (ps : List (Value × Value)) (s : String)
    (h : ∀ p ∈ ps, keyText p.1 ≠ s) : (storeAll m ps).get? s = m.get? s := by
  induction ps generalizing m with
  | nil => rfl
  | cons p ps ih =>
    obtain ⟨k, v⟩ := p
    have hk : s ≠ keyText k := fun e => h (k, v) (List.mem_cons_self _ _) e.symm
    simp only [storeAll]
    rw [ih _ (fun p hp => h p (List.mem_cons_of_mem _ hp)), GoMap.get?_set_ne _ _ hk]

theorem storeAll_get?_last (m : GoMap) (ps qs : List (Value × Value)) (k v : Value)
    (h : ∀ p ∈ qs, keyText p.1 ≠ keyText k) :
    (storeAll m (ps ++ (k, v) :: qs)).get? (keyText k) = some v := by
  rw [storeAll_append]
  simp only [storeAll]
  rw [storeAll_get?_of_absent _ _ _ h, GoMap.get?_set_self]

theorem storeAll_mem_keys (m : GoMap) (ps : List (Value × Value)) (s : String) :
    s ∈ (storeAll m ps).keys ↔ s ∈ m.keys ∨ ∃ p ∈ ps, keyText p.1 = s := by
  induction ps generalizing m with
  | nil => simp [storeAll]
  | cons p ps ih =>
    obtain ⟨k, v⟩ := p
    simp only [storeAll, ih, GoMap.mem_keys_set, List.mem_cons, exists_eq_or_imp]
    constructor
    · rintro ((h | h) | h)
      · exact Or.inr (Or.inl h.symm)
      · exact Or.inl h
      · exact Or.inr (Or.inr h)
    · rintro (h | h | h)
      · exact Or.inl (Or.inr h)
      · exact Or.inl (Or.inl h.symm)
      · exact Or.inr h

theorem storeAll_nodup_keys (m : GoMap) (ps : List (Value × Value)) (h : m.keys.Nodup) :
    (storeAll m ps).keys.Nodup := by
  induction ps generalizing m with
  | nil => exact h
  | cons p ps ih =>
    obtain ⟨k, v⟩ := p
    exact ih _ (GoMap.nodup_keys_set m _ v h)

/-! ## Pairs and argument positions -/

theorem pairsOf_getElem? : ∀ (values : List Value) (i : Nat) (k v : Value),
    (pairsOf values)[i]? = some (k, v) ↔ values[2 * i]? = some k ∧ values[2 * i + 1]? = some v
  | [], i, k, v => by simp [pairsOf]
  | [a], i, k, v => by
    cases i with
    | zero => simp [pairsOf]
    | succ i => simp [pairsOf, Nat.mul_succ]
  | a :: b :: rest, 0, k, v => by simp [pairsOf]
  | a :: b :: rest, i + 1, k, v => by
    have ih := pairsOf_getElem? rest i k v
    simpa [pairsOf, Nat.mul_succ] using ih

theorem pairsOf_split (values : List Value) (i : Nat) (k v : Value)
    (hk : values[2 * i]? = some k) (hv : values[2 * i + 1]? = some v) :
    pairsOf values = (pairsOf values).take i ++ (k, v) :: (pairsOf values).drop (i + 1) := by
  have h := (pairsOf_getElem? values i k v).mpr ⟨hk, hv⟩
  obtain ⟨hlt, hget⟩ := List.getElem?_eq_some.mp h
  conv_lhs => rw [← List.take_append_drop i (pairsOf values)]
  rw [List.drop_eq_getElem_cons hlt, hget]

theorem mem_pairsOf_drop (values : List Value) (i : Nat) (p : Value × Value)
    (hp : p ∈ (pairsOf values).drop (i + 1)) :
    ∃ j, i < j ∧ values[2 * j]? = some p.1 ∧ values[2 * j + 1]? = some p.2 := by
  obtain ⟨n, hn⟩ := List.mem_iff_getElem?.mp hp
  rw [List.getElem?_drop] at hn
  exact ⟨i + 1 + n, by omega, (pairsOf_getElem? values _ p.1 p.2).mp hn⟩

theorem mem_pairsOf_iff (values : List Value) (p : Value × Value) :
    p ∈ pairsOf values ↔ ∃ i, values[2 * i]? = some p.1 ∧ values[2 * i + 1]? = some p.2 := by
  rw [List.mem_iff_getElem?]
  exact exists_congr (fun i => pairsOf_getElem? values i p.1 p.2)

theorem value_after_key (values : List Value) (heven : values.length % 2 = 0) (i : Nat)
    (k : Value) (hk : values[2 * i]? = some k) : ∃ v, values[2 * i + 1]? = some v := by
  obtain ⟨hlt, _⟩ := List.getElem?_eq_some.mp hk
  have h1 : 2 * i + 1 < values.length := by omega
  exact ⟨values.get ⟨2 * i + 1, h1⟩, List.getElem?_eq_getElem h1⟩

/-- When every key prints, so does the key of every pair. -/
theorem printable_pairs (values : List Value)
    (hprint : ∀ i k, values[2 * i]? = some k → ∃ s, Sprint k = .ok s) :
    ∀ p ∈ pairsOf values, ∃ s, Sprint p.1 = .ok s := by
  intro p hp
  obtain ⟨i, hi, _⟩ := (mem_pairsOf_iff values p).mp hp
  exact hprint i p.1 hi

/-! ## The loop computes `storeAll` over `pairsOf` -/

theorem evens_zero (start : Nat) : evens start 0 = [] := by simp [evens]

theorem evens_succ (start count : Nat) :
    evens start (count + 1) = start :: evens (start + 2) count := by
  simp only [evens, List.range_succ_eq_map, List.map_cons, List.map_map]
  refine congrArg₂ _ (by simp) (List.map_congr_left ?_)
  intro j _
  simp only [Function.comp]
  omega

theorem index_of_lt {values : List Value} {i : Nat} (h : i < values.length) :
    index values i = .ok (values.get ⟨i, h⟩) := by
  simp [index, List.getElem?_eq_getElem h]

theorem drop_pair (values : List Value) (i : Nat) (h : i + 1 < values.length) :
    values.drop i =
      values.get ⟨i, by omega⟩ :: values.get ⟨i + 1, h⟩ :: values.drop (i + 2) := by
  have h0 : i < values.length := by omega
  rw [List.drop_eq_getElem_cons h0, List.drop_eq_getElem_cons h]
  rfl

/-- With `2 n` arguments left, all of whose keys print, the loop returns after
`n` more iterations. -/
theorem loop_eq (values : List Value) :
    ∀ (n fuel : Nat) (st : LoopState), st.i + 2 * n = values.length → n ≤ fuel →
      (∀ p ∈ pairsOf (values.drop st.i), ∃ s, Sprint p.1 = .ok s) →
      loop values fuel st =
        .ok { i := values.length
              nmap := storeAll st.nmap (pairsOf (values.drop st.i))
              visited := st.visited ++ evens st.i n } := by
  intro n
  induction n with
  | zero =>
    intro fuel st hlen _ _
    have hi : st.i = values.length := by omega
    have hnot : ¬ st.i < values.length := by omega
    unfold loop
    simp only [hnot, if_false]
    obtain ⟨i, m, vis⟩ := st
    simp only at hi
    subst hi
    simp [pairsOf, storeAll, evens_zero]
  | succ n ih =>
    intro fuel st hlen hfuel hp
    have hlt : st.i < values.length := by omega
    have hlt1 : st.i + 1 < values.length := by omega
    obtain ⟨fuel, rfl⟩ : ∃ f, fuel = f + 1 := ⟨fuel - 1, by omega⟩
    rw [drop_pair values st.i hlt1] at hp
    simp only [pairsOf] at hp
    have hk := Sprint_of_printable (hp _ (List.mem_cons_self _ _))
    simp only at hk
    unfold loop
    simp only [hlt, if_true, loopBody, index_of_lt hlt, index_of_lt hlt1, hk]
    rw [ih fuel _ (by simp only; omega) (by omega)
      (fun p hmem => hp p (List.mem_cons_of_mem _ hmem))]
    simp only [drop_pair values st.i hlt1, pairsOf, storeAll, evens_succ, List.append_assoc,
      List.singleton_append]

/-- With an even number of arguments left, the loop can only fail where
`fmt.Sprint` fails on a key. -/
theorem loop_error (values : List Value) :
    ∀ (n fuel : Nat) (st : LoopState), st.i + 2 * n = values.length → n ≤ fuel →
      ∀ e, loop values fuel st = .error e →
        ∃ p ∈ pairsOf (values.drop st.i), Sprint p.1 = .error e := by
  intro n
  induction n with
  | zero =>
    intro fuel st hlen _ e he
    have hnot : ¬ st.i < values.length := by omega
    unfold loop at he
    simp [hnot] at he
  | succ n ih =>
    intro fuel st hlen hfuel e he
    have hlt : st.i < values.length := by omega
    have hlt1 : st.i + 1 < values.length := by omega
    obtain ⟨fuel, rfl⟩ : ∃ f, fuel = f + 1 := ⟨fuel - 1, by omega⟩
    rw [drop_pair values st.i hlt1]
    simp only [pairsOf, List.mem_cons, exists_eq_or_imp]
    unfold loop at he
    simp only [hlt, if_true, loopBody, index_of_lt hlt, index_of_lt hlt1] at he
    cases hS : Sprint (values.get ⟨st.i, hlt⟩) with
    | error e' =>
      rw [hS] at he
      simp only [Except.error.injEq] at he
      exact Or.inl (he ▸ rfl)
    | ok key =>
      rw [hS] at he
      exact Or.inr (ih fuel _ (by simp only; omega) (by omega) e he)

theorem newMapRun_of_even (values : List Value) (heven : values.length % 2 = 0)
    (hprint : ∀ i k, values[2 * i]? = some k → ∃ s, Sprint k = .ok s) :
    newMapRun values =
      .ok { i := values.length
            nmap := storeAll GoMap.make (pairsOf values)
            visited := evens 0 (values.length / 2) } := by
  have hnot : ¬ values.length % 2 > 0 := by omega
  unfold newMapRun
  simp only [hnot, if_false]
  rw [loop_eq values (values.length / 2) values.length _ (by simp only; omega) (by omega)
    (by simpa using printable_pairs values hprint)]
  simp

theorem newMap_of_even (values : List Value) (heven : values.length % 2 = 0)
    (hprint : ∀ i k, values[2 * i]? = some k → ∃ s, Sprint k = .ok s) :
    newMap values = .ok (storeAll GoMap.make (pairsOf values)) := by
  simp [newMap, newMapRun_of_even values heven hprint]

theorem newMap_of_odd (values : List Value) (hodd : values.length % 2 = 1) :
    newMap values = .error (.panic invalidArgsMsg) := by
  have h : values.length % 2 > 0 := by omega
  simp [newMap, newMapRun, h]

/-- A failure of `newMap` on an even-length argument list is a failure of
`fmt.Sprint` on one of the keys. -/
theorem newMap_error_of_even (values : List Value) (heven : values.length % 2 = 0)
    (e : Failure) (he : newMap values = .error e) :
    ∃ i k, values[2 * i]? = some k ∧ Sprint k = .error e := by
  have hnot : ¬ values.length % 2 > 0 := by omega
  have hloop : loop values values.length { i := 0, nmap := GoMap.make, visited := [] } =
      .error e := by
    simp only [newMap, newMapRun, hnot, if_false] at he
    cases hl : loop values values.length { i := 0, nmap := GoMap.make, visited := [] } with
    | error e' =>
      rw [hl] at he
      simp only [Except.error.injEq] at he
      rw [he]
    | ok st =>
      rw [hl] at he
      cases he
  obtain ⟨p, hp, hs⟩ := loop_error values (values.length / 2) values.length _
    (by simp only; omega) (by omega) e hloop
  simp only [List.drop_zero] at hp
  obtain ⟨i, hi, _⟩ := (mem_pairsOf_iff values p).mp hp
  exact ⟨i, p.1, hi, hs⟩

/-- The entry of a key is the value of the last pair whose key prints as it does. -/
theorem newMap_get?_last (values : List Value) (i : Nat)
    (k v : Value) (hk : values[2 * i]? = some k) (hv : values[2 * i + 1]? = some v)
    (hlast : ∀ j k', i < j → values[2 * j]? = some k' → keyText k' ≠ keyText k) :
    (storeAll GoMap.make (pairsOf values)).get? (keyText k) = some v := by
  rw [pairsOf_split values i k v hk hv]
  apply storeAll_get?_last
  intro p hp
  obtain ⟨j, hj, hpk, _⟩ := mem_pairsOf_drop values i p hp
  exact hlast j p.1 hj hpk

theorem newMap_mem_keys (values : List Value) (heven : values.length % 2 = 0) (s : String) :
    s ∈ (storeAll GoMap.make (pairsOf values)).keys ↔
      ∃ i k, values[2 * i]? = some k ∧ keyText k = s := by
  rw [storeAll_mem_keys]
  constructor
  · rintro (h | ⟨p, hp, hs⟩)
    · simp [GoMap.make, GoMap.keys] at h
    · obtain ⟨i, hi, _⟩ := (mem_pairsOf_iff values p).mp hp
      exact ⟨i, p.1, hi, hs⟩
  · rintro ⟨i, k, hk, hs⟩
    obtain ⟨v, hv⟩ := value_after_key values heven i k hk
    exact Or.inr ⟨(k, v), (mem_pairsOf_iff values (k, v)).mpr ⟨i, hk, hv⟩, hs⟩

/-- Keys that print pairwise differently have pairwise different string forms. -/
theorem keyText_injective_of_distinct (values : List Value)
    (hprint : ∀ i k, values[2 * i]? = some k → ∃ s, Sprint k = .ok s)
    (hdist : ∀ i j k k' s, values[2 * i]? = some k → values[2 * j]? = some k' →
      Sprint k = .ok s → Sprint k' = .ok s → i = j) :
    ∀ i j k k', values[2 * i]? = some k → values[2 * j]? = some k' →
      keyText k = keyText k' → i = j := by
  intro i j k k' hk hk' heq
  have h1 := Sprint_of_printable (hprint i k hk)
  have h2 := Sprint_of_printable (hprint j k' hk')
  rw [← heq] at h2
  exact hdist i j k k' _ hk hk' h1 h2

/-! ## The claims on `newMap` -/

/-- C1: for every argument list of odd length `newMap` stops at its explicit
panic, before the map is made and before the loop starts, and returns no
mapping. -/
theorem newMap_odd_length_panics (values : List Value) (hodd : values.length % 2 = 1) :
    newMap values = .error (.panic invalidArgsMsg) ∧
      newMapRun values = .error (.panic invalidArgsMsg) ∧
      ∀ m, newMap values ≠ .ok m := by
  have h : values.length % 2 > 0 := by omega
  have hrun : newMapRun values = .error (.panic invalidArgsMsg) := by simp [newMapRun, h]
  refine ⟨newMap_of_odd values hodd, hrun, ?_⟩
  intro m hm
  rw [newMap_of_odd values hodd] at hm
  cases hm

/-- The call `map("a","b","c")` of the specification fails (C1 at three arguments). -/
theorem newMap_odd_length_panics_witness :
    newMap [.str "a", .str "b", .str "c"] = .error (.panic invalidArgsMsg) ∧
      newMapRun [.str "a", .str "b", .str "c"] = .error (.panic invalidArgsMsg) ∧
      ∀ m, newMap [.str "a", .str "b", .str "c"] ≠ .ok m :=
  newMap_odd_length_panics [.str "a", .str "b", .str "c"] (by decide)

/-- C2: for an even-length argument list whose keys (the arguments at positions
`0, 2, 4, ...`) have string forms, pairwise distinct, `newMap` returns a map in
which the string form of every key `values[2i]` is bound to exactly
`values[2i+1]`. -/
theorem newMap_lookup_of_distinct_keys (values : List Value)
    (heven : values.length % 2 = 0)
    (hprint : ∀ i k, values[2 * i]? = some k → ∃ s, Sprint k = .ok s)
    (hdist : ∀ i j k k' s, values[2 * i]? = some k → values[2 * j]? = some k' →
      Sprint k = .ok s → Sprint k' = .ok s → i = j) :
    ∃ m, newMap values = .ok m ∧
      ∀ i k v s, values[2 * i]? = some k → values[2 * i + 1]? = some v →
        Sprint k = .ok s → m.get? s = some v := by
  refine ⟨_, newMap_of_even values heven hprint, ?_⟩
  intro i k v s hk hv hs
  rw [← keyText_of_Sprint hs]
  apply newMap_get?_last values i k v hk hv
  intro j k' hij hk' heq
  have := keyText_injective_of_distinct values hprint hdist j i k' k hk' hk heq
  omega

/-- The test `map("name","José Santos").name` (C2 at one pair). -/
theorem newMap_lookup_of_distinct_keys_witness :
    ∃ m, newMap [.str "name", .str "José Santos"] = .ok m ∧
      m.get? "name" = some (.str "José Santos") := by
  obtain ⟨m, hm, h⟩ := newMap_lookup_of_distinct_keys [.str "name", .str "José Santos"]
    (by decide)
    (by
      intro i k hi
      rcases i with _ | i
      · simp only [Nat.mul_zero, List.getElem?_cons_zero, Option.some.injEq] at hi
        exact ⟨"name", by rw [← hi]; rfl⟩
      · simp [Nat.mul_succ] at hi)
    (by
      intro i j k k' s hi hj _ _
      rcases i with _ | i
      · rcases j with _ | j
        · rfl
        · simp [Nat.mul_succ] at hj
      · simp [Nat.mul_succ] at hi)
  exact ⟨m, hm, h 0 (.str "name") (.str "José Santos") "name" rfl rfl rfl⟩

/-- C3: for an even-length argument list whose keys have string forms, the keys
of the map returned by `newMap` are exactly the string forms of the arguments
at positions `0, 2, 4, ...`, each key once; an argument at an odd position is
stored as a value only. -/
theorem newMap_keys_are_even_positions (values : List Value)
    (heven : values.length % 2 = 0)
    (hprint : ∀ i k, values[2 * i]? = some k → ∃ s, Sprint k = .ok s) :
    ∃ m, newMap values = .ok m ∧ m.keys.Nodup ∧
      ∀ s, s ∈ m.keys ↔ ∃ i k, values[2 * i]? = some k ∧ Sprint k = .ok s := by
  refine ⟨_, newMap_of_even values heven hprint, ?_, ?_⟩
  · exact storeAll_nodup_keys _ _ (by simp [GoMap.make, GoMap.keys])
  · intro s
    rw [newMap_mem_keys values heven]
    constructor
    · rintro ⟨i, k, hk, hs⟩
      exact ⟨i, k, hk, (Sprint_iff_keyText (hprint i k hk) s).mpr hs⟩
    · rintro ⟨i, k, hk, hs⟩
      exact ⟨i, k, hk, keyText_of_Sprint hs⟩

/-- In `map(1,"a",true,"b")` every key prints. -/
theorem printable_keys_1_true :
    ∀ i k, [Value.int 1, .str "a", .bool true, .str "b"][2 * i]? = some k →
      ∃ s, Sprint k = .ok s := by
  intro i k hi
  rcases i with _ | _ | i
  · simp only [Nat.mul_zero, List.getElem?_cons_zero, Option.some.injEq] at hi
    exact ⟨"1", by rw [← hi]; rfl⟩
  · simp only [Nat.mul_one, List.getElem?_cons_succ, List.getElem?_cons_zero,
      Option.some.injEq] at hi
    exact ⟨"true", by rw [← hi]; rfl⟩
  · simp [Nat.mul_succ] at hi

/-- With `map(1,"a",true,"b")` the keys are `"1"` and `"true"`; `"a"` and `"b"`
are not keys (C3 at two pairs). -/
theorem newMap_keys_are_even_positions_witness :
    ∃ m, newMap [.int 1, .str "a", .bool true, .str "b"] = .ok m ∧ m.keys.Nodup ∧
      ∀ s, s ∈ m.keys ↔
        ∃ i k, [Value.int 1, .str "a", .bool true, .str "b"][2 * i]? = some k ∧
          Sprint k = .ok s :=
  newMap_keys_are_even_positions [.int 1, .str "a", .bool true, .str "b"] (by decide)
    printable_keys_1_true

/-- C4 fails as stated when a name is given twice: in `map(@a, 1, @a, 2)` the
first `a` is followed by `1`, and the map binds `"a"` to `2`. -/
theorem newMap_repeated_name_counterexample :
    [Value.str "a", .int 1, .str "a", .int 2][2 * 0]? = some (.str "a") ∧
      [Value.str "a", .int 1, .str "a", .int 2][2 * 0 + 1]? = some (.int 1) ∧
      newMap [.str "a", .int 1, .str "a", .int 2] = .ok [("a", .int 2)] ∧
      GoMap.get? [("a", .int 2)] "a" ≠ some (.int 1) := by
  decide

/-- C4 (amended): when every argument at an even position is a name string,
`newMap` returns a map whose keys are exactly those names, unchanged, and each
name is bound to the value that follows its last occurrence (so to the value
that follows it when the name is given once). -/
theorem newMap_of_named_pairs (values : List Value) (heven : values.length % 2 = 0)
    (hnames : ∀ i k, values[2 * i]? = some k → ∃ name, k = .str name) :
    ∃ m, newMap values = .ok m ∧
      (∀ s, s ∈ m.keys ↔ ∃ i, values[2 * i]? = some (.str s)) ∧
      ∀ i name v, values[2 * i]? = some (.str name) → values[2 * i + 1]? = some v →
        (∀ j, i < j → values[2 * j]? ≠ some (.str name)) → m.get? name = some v := by
  have hprint : ∀ i k, values[2 * i]? = some k → ∃ s, Sprint k = .ok s := by
    intro i k hk
    obtain ⟨name, rfl⟩ := hnames i k hk
    exact ⟨name, rfl⟩
  refine ⟨_, newMap_of_even values heven hprint, ?_, ?_⟩
  · intro s
    rw [newMap_mem_keys values heven]
    constructor
    · rintro ⟨i, k, hk, hs⟩
      obtain ⟨name, rfl⟩ := hnames i k hk
      have hs' : name = s := hs
      subst hs'
      exact ⟨i, hk⟩
    · rintro ⟨i, hi⟩
      exact ⟨i, .str s, hi, rfl⟩
  · intro i name v hk hv hlast
    have h := newMap_get?_last values i (.str name) v hk hv
    have hname : keyText (.str name) = name := rfl
    rw [hname] at h
    apply h
    intro j k' hij hk' heq
    obtain ⟨name', rfl⟩ := hnames j k' hk'
    have heq' : name' = name := heq
    subst heq'
    exact hlast j hij hk'

/-- The test `map(@name,"José Santos",@email,"email@example.pt").email` (C4 at
two named pairs). -/
theorem newMap_of_named_pairs_witness :
    ∃ m, newMap [.str "name", .str "José Santos", .str "email", .str "email@example.pt"] = .ok m ∧
      m.get? "email" = some (.str "email@example.pt") ∧
      m.get? "name" = some (.str "José Santos") := by
  obtain ⟨m, hm, _, h⟩ := newMap_of_named_pairs
    [.str "name", .str "José Santos", .str "email", .str "email@example.pt"] (by decide)
    (by
      intro i k hi
      rcases i with _ | _ | i
      · exact ⟨"name", by simpa using hi.symm⟩
      · exact ⟨"email", by simpa using hi.symm⟩
      · simp [Nat.mul_succ] at hi)
  refine ⟨m, hm, h 1 "email" _ rfl rfl ?_, h 0 "name" _ rfl rfl ?_⟩
  · intro j hj
    obtain ⟨j, rfl⟩ : ∃ n, j = n + 2 := ⟨j - 2, by omega⟩
    simp [Nat.mul_succ]
  · intro j hj
    rcases j with _ | _ | j
    · omega
    · decide
    · simp [Nat.mul_succ]

/-- C9 fails as stated where `fmt.Sprint` does not return on a key: the
even-length calls `map(x, 1)`, with `x` a value whose `String` method panics
beyond recovery, and `map(xs, 1)`, with `xs` a slice that contains itself,
fail, and not by the odd-count panic. -/
theorem newMap_unprintable_key_counterexample :
    [Value.host .object 0 0 (.panics "boom"), .int 1].length % 2 = 0 ∧
      newMap [.host .object 0 0 (.panics "boom"), .int 1] = .error (.sprintPanic "boom") ∧
      newMap [.host .sequence 1 1 .overflows, .int 1] = .error .stackOverflow ∧
      Failure.sprintPanic "boom" ≠ .panic invalidArgsMsg ∧
      Failure.stackOverflow ≠ .panic invalidArgsMsg := by
  decide

/-- C9 (amended): on an even-length argument list on whose keys `fmt.Sprint`
returns, `newMap` returns a map; its loop runs the body at `i = 0, 2, 4, ...`,
at each of them `i` and `i + 1` are valid positions of `values`, and it stops
with `i = len(values)` after exactly `len(values) / 2` iterations.  On any
argument list, `newMap` can fail only by its explicit panic, and then the
length is odd, or by a failure of `fmt.Sprint` on a key, and then the length
is even. -/
theorem newMap_even_length_safe (values : List Value) :
    (values.length % 2 = 0 →
      (∀ i k, values[2 * i]? = some k → ∃ s, Sprint k = .ok s) →
      ∃ st, newMapRun values = .ok st ∧ newMap values = .ok st.nmap ∧
        st.i = values.length ∧
        st.visited = (List.range (values.length / 2)).map (fun j => 2 * j) ∧
        st.visited.length = values.length / 2 ∧
        ∀ i ∈ st.visited, i < values.length ∧ i + 1 < values.length ∧
          (∃ k, index values i = .ok k) ∧ ∃ v, index values (i + 1) = .ok v) ∧
    (∀ e, newMap values = .error e →
      (e = .panic invalidArgsMsg ∧ values.length % 2 = 1) ∨
      (values.length % 2 = 0 ∧ ∃ i k, values[2 * i]? = some k ∧ Sprint k = .error e)) := by
  constructor
  · intro heven hprint
    have hvis : evens 0 (values.length / 2) =
        (List.range (values.length / 2)).map (fun j => 2 * j) := by
      simp [evens]
    refine ⟨_, newMapRun_of_even values heven hprint, ?_, rfl, hvis, ?_, ?_⟩
    · simp [newMap_of_even values heven hprint]
    · simp [evens]
    · intro i hi
      simp only [evens, List.mem_map, List.mem_range] at hi
      obtain ⟨j, hj, rfl⟩ := hi
      have h0 : 0 + 2 * j < values.length := by omega
      have h1 : 0 + 2 * j + 1 < values.length := by omega
      exact ⟨h0, h1, ⟨_, index_of_lt h0⟩, ⟨_, index_of_lt h1⟩⟩
  · intro e he
    rcases Nat.mod_two_eq_zero_or_one values.length with h | h
    · exact Or.inr ⟨h, newMap_error_of_even values h e he⟩
    · rw [newMap_of_odd values h] at he
      cases he
      exact Or.inl ⟨rfl, h⟩

/-- In `map("a",1,"b",2)` every key prints. -/
theorem printable_keys_a_b :
    ∀ i k, [Value.str "a", .int 1, .str "b", .int 2][2 * i]? = some k →
      ∃ s, Sprint k = .ok s := by
  intro i k hi
  rcases i with _ | _ | i
  · simp only [Nat.mul_zero, List.getElem?_cons_zero, Option.some.injEq] at hi
    exact ⟨"a", by rw [← hi]; rfl⟩
  · simp only [Nat.mul_one, List.getElem?_cons_succ, List.getElem?_cons_zero,
      Option.some.injEq] at hi
    exact ⟨"b", by rw [← hi]; rfl⟩
  · simp [Nat.mul_succ] at hi

/-- The call `map("a",1,"b",2)` runs the body at `i = 0` and `i = 2` and
stops with `i = 4`; the failure of `map(x, 1)` is the failure of `fmt.Sprint`
on `x` (C9 at two pairs and at an unprintable key). -/
theorem newMap_even_length_safe_witness :
    (∃ st, newMapRun [.str "a", .int 1, .str "b", .int 2] = .ok st ∧
      st.i = 4 ∧ st.visited = [0, 2]) ∧
    ∃ i k, [Value.host .object 0 0 (.panics "boom"), .int 1][2 * i]? = some k ∧
      Sprint k = .error (.sprintPanic "boom") := by
  constructor
  · obtain ⟨st, hrun, _, hi, hvis, _⟩ :=
      (newMap_even_length_safe [.str "a", .int 1, .str "b", .int 2]).1 (by decide)
        printable_keys_a_b
    exact ⟨st, hrun, hi, hvis⟩
  · rcases (newMap_even_length_safe [.host .object 0 0 (.panics "boom"), .int 1]).2
      (.sprintPanic "boom") (by decide) with h | h
    · exact absurd h.1 (by decide)
    · exact h.2

/-- C10: in an even-length argument list whose keys have string forms, the
string form of a key is bound to the value of the last pair whose key has that
string form, and the map holds one entry for it, however many pairs share it
and whether or not their keys are equal as values. -/
theorem newMap_last_pair_wins (values : List Value) (heven : values.length % 2 = 0)
    (hprint : ∀ i k, values[2 * i]? = some k → ∃ s, Sprint k = .ok s)
    (i : Nat) (k v : Value) (s : String)
    (hk : values[2 * i]? = some k) (hv : values[2 * i + 1]? = some v)
    (hs : Sprint k = .ok s)
    (hlast : ∀ j k', i < j → values[2 * j]? = some k' → Sprint k' ≠ .ok s) :
    ∃ m, newMap values = .ok m ∧ m.get? s = some v ∧ m.keys.count s = 1 := by
  have hks : keyText k = s := keyText_of_Sprint hs
  refine ⟨_, newMap_of_even values heven hprint, ?_, ?_⟩
  · rw [← hks]
    apply newMap_get?_last values i k v hk hv
    intro j k' hij hk' heq
    apply hlast j k' hij hk'
    rw [Sprint_of_printable (hprint j k' hk'), heq, hks]
  · apply List.count_eq_one_of_mem
    · exact storeAll_nodup_keys _ _ (by simp [GoMap.make, GoMap.keys])
    · exact (newMap_mem_keys values heven _).mpr ⟨i, k, hk, hks⟩

/-- The call `map(1,"a","1","b")`: the keys `1` and `"1"` both print as `"1"`,
and the map has the one entry `"1" -> "b"` (C10 at two pairs). -/
theorem newMap_last_pair_wins_witness :
    Sprint (.int 1) = Sprint (.str "1") ∧
      ∃ m, newMap [.int 1, .str "a", .str "1", .str "b"] = .ok m ∧
        m.get? "1" = some (.str "b") ∧ m.keys.count "1" = 1 ∧ m.len = 1 := by
  refine ⟨by decide, ?_⟩
  obtain ⟨m, hm, hget, hcount⟩ := newMap_last_pair_wins
    [.int 1, .str "a", .str "1", .str "b"] (by decide)
    (by
      intro i k hi
      rcases i with _ | _ | i
      · simp only [Nat.mul_zero, List.getElem?_cons_zero, Option.some.injEq] at hi
        exact ⟨"1", by rw [← hi]; decide⟩
      · simp only [Nat.mul_one, List.getElem?_cons_succ, List.getElem?_cons_zero,
          Option.some.injEq] at hi
        exact ⟨"1", by rw [← hi]; rfl⟩
      · simp [Nat.mul_succ] at hi)
    1 (.str "1") (.str "b") "1" rfl rfl rfl
    (by
      intro j k' hj hk'
      obtain ⟨j, rfl⟩ : ∃ n, j = n + 2 := ⟨j - 2, by omega⟩
      simp [Nat.mul_succ] at hk')
  refine ⟨m, hm, hget, hcount, ?_⟩
  have h2 : newMap [.int 1, .str "a", .str "1", .str "b"] = .ok [("1", .str "b")] := by decide
  rw [h2] at hm
  cases hm
  rfl

/-! ## The claim on `defaultVariables` -/

/-- C5: `defaultVariables` registers the seven names `lower`, `upper`,
`hasPrefix`, `hasSuffix`, `repeat`, `replace` and `map`, each once and no
other, and `map` is bound to `newMap`. -/
theorem defaultVariables_names :
    defaultVariables.map Prod.fst =
        ["lower", "upper", "hasPrefix", "hasSuffix", "repeat", "replace", "map"] ∧
      (defaultVariables.map Prod.fst).Nodup ∧
      defaultVariables.length = 7 ∧
      (∀ name, (lookupDefault name).isSome = true ↔
        name ∈ ["lower", "upper", "hasPrefix", "hasSuffix", "repeat", "replace", "map"]) ∧
      ∃ f, lookupDefault "map" = some (.variadic f) ∧ f = newMap := by
  refine ⟨rfl, by decide, rfl, ?_, newMap, rfl, rfl⟩
  intro name
  have key : ∀ l : List (String × Callable),
      ((l.find? (fun e => e.1 == name)).map Prod.snd).isSome = true ↔
        name ∈ l.map Prod.fst := by
    intro l
    simp only [Option.isSome_map', List.find?_isSome, List.mem_map, beq_iff_eq]
  have hkeys : defaultVariables.map Prod.fst =
      ["lower", "upper", "hasPrefix", "hasSuffix", "repeat", "replace", "map"] := rfl
  rw [← hkeys]
  exact key defaultVariables

/-! ## The parser on arithmetic expressions -/

theorem parsePrimary_lparen (fuel : Nat) (rest : List Token) :
    parsePrimary (fuel + 1) (.lparen :: rest) =
      match parseExpr fuel 1 rest with
      | some (e, .rparen :: rest') => some (e, rest')
      | _ => none := by
  simp only [parsePrimary]

theorem parseUnary_minus (fuel : Nat) (rest : List Token) :
    parseUnary (fuel + 1) (.minus :: rest) =
      match parseUnary fuel rest with
      | some (e, rest') => some (.neg e, rest')
      | none => none := by
  simp only [parseUnary]

theorem parseExpr_succ (fuel q : Nat) (ts : List Token) :
    parseExpr (fuel + 1) q ts =
      match parseUnary fuel ts with
      | some (lhs, rest) => climb fuel q lhs rest
      | none => none := by
  simp only [parseExpr]

theorem climb_cons (fuel q : Nat) (lhs : Expr) (t : Token) (rest : List Token) :
    climb (fuel + 1) q lhs (t :: rest) =
      match t.binOp? with
      | none => some (lhs, t :: rest)
      | some op =>
        if q ≤ op.prec then
          match parseExpr fuel (op.prec + 1) rest with
          | some (rhs, rest') => climb fuel q (.bin op lhs rhs) rest'
          | none => none
        else some (lhs, t :: rest) := by
  simp only [climb]

theorem parse_fuel_succ (fuel : Nat) :
    (∀ ts r, parsePrimary fuel ts = some r → parsePrimary (fuel + 1) ts = some r) ∧
    (∀ ts r, parseUnary fuel ts = some r → parseUnary (fuel + 1) ts = some r) ∧
    (∀ q ts r, parseExpr fuel q ts = some r → parseExpr (fuel + 1) q ts = some r) ∧
    (∀ q lhs ts r, climb fuel q lhs ts = some r → climb (fuel + 1) q lhs ts = some r) := by
  induction fuel with
  | zero =>
    refine ⟨?_, ?_, ?_, ?_⟩ <;> intros <;> simp_all [parsePrimary, parseUnary, parseExpr, climb]
  | succ fuel ih =>
    obtain ⟨ihP, ihU, ihE, ihC⟩ := ih
    have hP : ∀ ts r, parsePrimary (fuel + 1) ts = some r →
        parsePrimary (fuel + 2) ts = some r := by
      intro ts r h
      cases ts with
      | nil => simp [parsePrimary] at h
      | cons t rest =>
        cases t with
        | num n => simpa [parsePrimary] using h
        | float x => simpa [parsePrimary] using h
        | lparen =>
          rw [parsePrimary_lparen] at h ⊢
          cases hE : parseExpr fuel 1 rest with
          | none => simp [hE] at h
          | some p =>
            rw [ihE _ _ _ hE]
            rw [hE] at h
            exact h
        | _ => simp [parsePrimary] at h
    refine ⟨hP, ?_, ?_, ?_⟩
    · intro ts r h
      cases ts with
      | nil =>
        simp only [parseUnary] at h ⊢
        exact ihP _ _ h
      | cons t rest =>
        cases t with
        | minus =>
          rw [parseUnary_minus] at h ⊢
          cases hU : parseUnary fuel rest with
          | none => simp [hU] at h
          | some p =>
            rw [ihU _ _ hU]
            rw [hU] at h
            exact h
        | _ =>
          simp only [parseUnary] at h ⊢
          exact ihP _ _ h
    · intro q ts r h
      rw [parseExpr_succ] at h ⊢
      cases hU : parseUnary fuel ts with
      | none => simp [hU] at h
      | some p =>
        rw [ihU _ _ hU]
        rw [hU] at h
        exact ihC _ _ _ _ h
    · intro q lhs ts r h
      cases ts with
      | nil => simpa [climb] using h
      | cons t rest =>
        rw [climb_cons] at h ⊢
        cases hop : t.binOp? with
        | none =>
          rw [hop] at h
          exact h
        | some op =>
          rw [hop] at h
          simp only at h ⊢
          by_cases hq : q ≤ op.prec
          · simp only [hq, if_true] at h ⊢
            cases hE : parseExpr fuel (op.prec + 1) rest with
            | none => simp [hE] at h
            | some p =>
              rw [ihE _ _ _ hE]
              rw [hE] at h
              exact ihC _ _ _ _ h
          · simp only [hq, if_false] at h ⊢
            exact h

theorem parse_fuel_le {n m : Nat} (h : n ≤ m) :
    (∀ ts r, parseUnary n ts = some r → parseUnary m ts = some r) ∧
    (∀ q ts r, parseExpr n q ts = some r → parseExpr m q ts = some r) ∧
    (∀ q lhs ts r, climb n q lhs ts = some r → climb m q lhs ts = some r) := by
  induction h with
  | refl => exact ⟨fun _ _ h => h, fun _ _ _ h => h, fun _ _ _ _ h => h⟩
  | step _ ih =>
    obtain ⟨ihU, ihE, ihC⟩ := ih
    obtain ⟨_, sU, sE, sC⟩ := parse_fuel_succ _
    exact ⟨fun ts r h => sU ts r (ihU ts r h), fun q ts r h => sE q ts r (ihE q ts r h),
      fun q lhs ts r h => sC q lhs ts r (ihC q lhs ts r h)⟩

theorem Arith.binOp?_symbol (op : BinOp) : (Arith.symbol op).binOp? = some op := by
  cases op <;> rfl

/-- The parser's binding strengths are the conventional ones. -/
theorem Arith.strength_eq_prec (op : BinOp) : Arith.strength op = op.prec := by
  cases op <;> rfl

theorem BinOp.one_le_prec (op : BinOp) : 1 ≤ op.prec := by
  cases op <;> simp [BinOp.prec]

theorem BinOp.prec_le_two (op : BinOp) : op.prec ≤ 2 := by
  cases op <;> simp [BinOp.prec]

theorem Arith.one_le_level (a : Arith) : 1 ≤ a.level := by
  cases a with
  | bin op l r =>
    simp only [Arith.level, Arith.strength_eq_prec]
    exact op.one_le_prec
  | _ => simp [Arith.level]

theorem stopsAt_nil (q : Nat) : stopsAt q [] := by
  intro t op ht
  simp at ht

theorem stopsAt_rparen (q : Nat) (rest : List Token) : stopsAt q (.rparen :: rest) := by
  intro t op ht hop
  simp only [List.head?_cons, Option.some.injEq] at ht
  subst ht
  simp [Token.binOp?] at hop

theorem stopsAt_symbol (q : Nat) (op : BinOp) (rest : List Token) (h : op.prec < q) :
    stopsAt q (Arith.symbol op :: rest) := by
  intro t op' ht hop
  simp only [List.head?_cons, Option.some.injEq] at ht
  subst ht
  rw [Arith.binOp?_symbol] at hop
  cases hop
  exact h

theorem stopsAt_mono {q q' : Nat} {rest : List Token} (hq : q ≤ q') (h : stopsAt q rest) :
    stopsAt q' rest :=
  fun t op ht hop => Nat.lt_of_lt_of_le (h t op ht hop) hq

theorem climb_stop (fuel q : Nat) (lhs : Expr) (rest : List Token) (h : stopsAt q rest) :
    climb (fuel + 1) q lhs rest = some (lhs, rest) := by
  cases rest with
  | nil => simp [climb]
  | cons t rest =>
    rw [climb_cons]
    cases hop : t.binOp? with
    | none => rfl
    | some op =>
      have hlt : ¬ q ≤ op.prec := Nat.not_le.mpr (h t op rfl hop)
      simp [hlt]

theorem climb_zero (q : Nat) (lhs : Expr) (ts : List Token) : climb 0 q lhs ts = none := by
  simp [climb]

/-- Once the unary operand is read, `parseExpr` is the climbing loop. -/
theorem parseExpr_of_unary (ts rest : List Token) (lhs : Expr) (u : Nat)
    (hU : ∀ fuel, u ≤ fuel → parseUnary fuel ts = some (lhs, rest))
    (q n : Nat) (R : Expr × List Token) (fuel : Nat)
    (hclimb : climb n q lhs rest = some R) (hu : 1 ≤ u) (hf : n + u ≤ fuel) :
    parseExpr fuel q ts = some R := by
  have hn : 1 ≤ n := by
    rcases n with _ | n
    · rw [climb_zero] at hclimb
      cases hclimb
    · omega
  obtain ⟨f, rfl⟩ : ∃ f, fuel = f + 1 := ⟨fuel - 1, by omega⟩
  rw [parseExpr_succ, hU f (by omega)]
  exact (parse_fuel_le (by omega : n ≤ f)).2.2 _ _ _ _ hclimb

/-- A literal is read at the unary level and, by `parseExpr`, handed to the
climbing loop. -/
theorem parse_literal (t : Token) (e : Expr)
    (hprim : ∀ fuel rest, parsePrimary (fuel + 1) (t :: rest) = some (e, rest))
    (hnotminus : ∀ fuel rest, parseUnary (fuel + 1) (t :: rest) = parsePrimary fuel (t :: rest)) :
    (∀ rest fuel, 4 ≤ fuel → parseUnary fuel (t :: rest) = some (e, rest)) ∧
    (∀ q rest n R fuel, climb n q e rest = some R → n + 4 ≤ fuel →
        parseExpr fuel q (t :: rest) = some R) := by
  have hU : ∀ rest fuel, 4 ≤ fuel → parseUnary fuel (t :: rest) = some (e, rest) := by
    intro rest fuel hf
    obtain ⟨f, rfl⟩ : ∃ f, fuel = f + 2 := ⟨fuel - 2, by omega⟩
    rw [hnotminus, hprim]
  refine ⟨hU, ?_⟩
  intro q rest n R fuel hclimb hf
  exact parseExpr_of_unary _ _ _ 4 (hU rest) q n R fuel hclimb (by omega) hf

/-- The parser reads an arithmetic expression as it is conventionally read:
at the unary level when the expression binds that tightly, and by precedence
climbing in front of anything the loop stops at. -/
theorem parse_arith (a : Arith) (hc : a.conventional = true) :
    (3 ≤ a.level → ∀ rest fuel, 4 * a.tokens.length ≤ fuel →
        parseUnary fuel (a.tokens ++ rest) = some (a.ast, rest)) ∧
    (∀ q rest n R fuel, q ≤ a.level → stopsAt (a.level + 1) rest →
        climb n q a.ast rest = some R → n + 4 * a.tokens.length ≤ fuel →
        parseExpr fuel q (a.tokens ++ rest) = some R) := by
  induction a with
  | num n =>
    obtain ⟨hU, hE⟩ := parse_literal (.num n) (.lit (.int n))
      (fun _ _ => by simp [parsePrimary]) (fun _ _ => by simp [parseUnary])
    refine ⟨fun _ rest fuel hf => hU rest fuel (by simpa [Arith.tokens] using hf), ?_⟩
    intro q rest n' R fuel _ _ hclimb hf
    exact hE q rest n' R fuel hclimb (by simpa [Arith.tokens] using hf)
  | float x =>
    obtain ⟨hU, hE⟩ := parse_literal (.float x) (.lit (.float x))
      (fun _ _ => by simp [parsePrimary]) (fun _ _ => by simp [parseUnary])
    refine ⟨fun _ rest fuel hf => hU rest fuel (by simpa [Arith.tokens] using hf), ?_⟩
    intro q rest n' R fuel _ _ hclimb hf
    exact hE q rest n' R fuel hclimb (by simpa [Arith.tokens] using hf)
  | neg a ih =>
    simp only [Arith.conventional, Bool.and_eq_true, decide_eq_true_eq] at hc
    obtain ⟨ihU, _⟩ := ih hc.2
    have hU : ∀ rest fuel, 4 * a.tokens.length + 4 ≤ fuel →
        parseUnary fuel (Token.minus :: (a.tokens ++ rest)) = some (.neg a.ast, rest) := by
      intro rest fuel hf
      obtain ⟨f, rfl⟩ : ∃ f, fuel = f + 1 := ⟨fuel - 1, by omega⟩
      rw [parseUnary_minus, ihU hc.1 rest f (by omega)]
    refine ⟨fun _ rest fuel hf => hU rest fuel (by simpa [Arith.tokens, Nat.mul_succ] using hf), ?_⟩
    intro q rest n' R fuel _ _ hclimb hf
    exact parseExpr_of_unary _ _ _ (4 * a.tokens.length + 4) (hU rest) q n' R fuel hclimb
      (by omega) (by simpa [Arith.tokens, Nat.mul_succ, Nat.add_assoc] using hf)
  | paren a ih =>
    simp only [Arith.conventional] at hc
    obtain ⟨_, ihE⟩ := ih hc
    have hU : ∀ rest fuel, 4 * a.tokens.length + 8 ≤ fuel →
        parseUnary fuel (Token.lparen :: (a.tokens ++ Token.rparen :: rest)) =
          some (a.ast, rest) := by
      intro rest fuel hf
      obtain ⟨f, rfl⟩ : ∃ f, fuel = f + 2 := ⟨fuel - 2, by omega⟩
      have hE := ihE 1 (Token.rparen :: rest) 1 (a.ast, Token.rparen :: rest) f
        a.one_le_level (stopsAt_rparen _ _) (climb_stop 0 1 _ _ (stopsAt_rparen _ _)) (by omega)
      simp only [parseUnary]
      rw [parsePrimary_lparen, hE]
    have htok : ∀ rest, (Arith.paren a).tokens ++ rest =
        Token.lparen :: (a.tokens ++ Token.rparen :: rest) := by
      intro rest
      simp [Arith.tokens]
    have hlen : (Arith.paren a).tokens.length = a.tokens.length + 2 := by
      simp [Arith.tokens]
    refine ⟨fun _ rest fuel hf => ?_, ?_⟩
    · rw [htok]
      exact hU rest fuel (by rw [hlen] at hf; omega)
    · intro q rest n' R fuel _ _ hclimb hf
      rw [htok]
      exact parseExpr_of_unary _ _ _ (4 * a.tokens.length + 8) (hU rest) q n' R fuel hclimb
        (by omega) (by rw [hlen] at hf; omega)
  | bin op l r ihl ihr =>
    simp only [Arith.conventional, Bool.and_eq_true, decide_eq_true_eq,
      Arith.strength_eq_prec] at hc
    obtain ⟨⟨⟨hl, hr⟩, hcl⟩, hcr⟩ := hc
    refine ⟨fun h3 => ?_, ?_⟩
    · have := op.prec_le_two
      simp only [Arith.level, Arith.strength_eq_prec] at h3
      omega
    · intro q rest n' R fuel hq hstop hclimb hf
      simp only [Arith.level, Arith.strength_eq_prec] at hq hstop
      have htok : (Arith.bin op l r).tokens ++ rest =
          l.tokens ++ Arith.symbol op :: (r.tokens ++ rest) := by
        simp [Arith.tokens]
      have hlen : (Arith.bin op l r).tokens.length = l.tokens.length + r.tokens.length + 1 := by
        simp [Arith.tokens]
        omega
      rw [hlen] at hf
      rw [htok]
      apply (ihl hcl).2 q (Arith.symbol op :: (r.tokens ++ rest))
        (n' + 4 * r.tokens.length + 2) R fuel
        (Nat.le_trans hq hl) (stopsAt_symbol _ _ _ (by omega)) ?_ (by omega)
      have hright := (ihr hcr).2 (op.prec + 1) rest 1 (r.ast, rest) (n' + 4 * r.tokens.length + 1)
        (by omega) (stopsAt_mono (by omega) hstop) (climb_stop 0 _ _ _ hstop) (by omega)
      rw [show n' + 4 * r.tokens.length + 2 = (n' + 4 * r.tokens.length + 1) + 1 from rfl,
        climb_cons, Arith.binOp?_symbol]
      simp only [hq, if_true, hright]
      exact (parse_fuel_le (by omega : n' ≤ n' + 4 * r.tokens.length + 1)).2.2 _ _ _ _ hclimb

theorem parseExpression_tokens (a : Arith) (hc : a.conventional = true) :
    parseExpression a.tokens = some a.ast := by
  have h := (parse_arith a hc).2 1 [] 1 (a.ast, []) (4 * a.tokens.length + 1)
    a.one_le_level (stopsAt_nil _) (climb_stop 0 1 _ _ (stopsAt_nil _)) (by omega)
  rw [List.append_nil] at h
  simp [parseExpression, h]

theorem evalBin_apply (fl : FloatOps) (op : BinOp) (x y v : Number)
    (h : Arith.apply fl op x y = some v) :
    evalBin fl op x.toValue y.toValue = .ok v.toValue := by
  cases x with
  | int a =>
    cases y with
    | int b =>
      cases op <;> simp only [Arith.apply, Number.toValue, evalBin] at h ⊢
      · cases h
        rfl
      · cases h
        rfl
      · cases h
        rfl
      · by_cases hb : b = 0
        · simp [hb] at h
        · simp only [hb, if_false, Option.some.injEq] at h ⊢
          rw [← h]
      · by_cases hb : b = 0
        · simp [hb] at h
        · simp only [hb, if_false, Option.some.injEq] at h ⊢
          rw [← h]
    | float y =>
      have h' : ((fl.ofInt a).bind (fun x => fl.arith op x y)).map Number.float = some v := by
        cases op <;> exact h
      have he : evalBin fl op (.int a) (.float y) =
          floatResult ((fl.ofInt a).bind (fun x => fl.arith op x y)) := by
        cases op <;> rfl
      simp only [Number.toValue, he]
      cases hz : (fl.ofInt a).bind (fun x => fl.arith op x y) with
      | none => simp [hz] at h'
      | some z =>
        simp only [hz, Option.map_some', Option.some.injEq] at h'
        rw [← h']
        rfl
  | float x =>
    cases y with
    | int b =>
      have h' : ((fl.ofInt b).bind (fun y => fl.arith op x y)).map Number.float = some v := by
        cases op <;> exact h
      have he : evalBin fl op (.float x) (.int b) =
          floatResult ((fl.ofInt b).bind (fun y => fl.arith op x y)) := by
        cases op <;> rfl
      simp only [Number.toValue, he]
      cases hz : (fl.ofInt b).bind (fun y => fl.arith op x y) with
      | none => simp [hz] at h'
      | some z =>
        simp only [hz, Option.map_some', Option.some.injEq] at h'
        rw [← h']
        rfl
    | float y =>
      have h' : (fl.arith op x y).map Number.float = some v := by
        cases op <;> exact h
      have he : evalBin fl op (.float x) (.float y) = floatResult (fl.arith op x y) := by
        cases op <;> rfl
      simp only [Number.toValue, he]
      cases hz : fl.arith op x y with
      | none => simp [hz] at h'
      | some z =>
        simp only [hz, Option.map_some', Option.some.injEq] at h'
        rw [← h']
        rfl

theorem evalExpr_ast (env : Env) (a : Arith) (v : Number)
    (hv : a.value env.floatOps = some v) :
    evalExpr env a.ast = .ok v.toValue := by
  induction a generalizing v with
  | num n =>
    simp only [Arith.value, Option.some.injEq] at hv
    subst hv
    rfl
  | float x =>
    simp only [Arith.value, Option.some.injEq] at hv
    subst hv
    rfl
  | neg a ih =>
    simp only [Arith.value] at hv
    cases ha : a.value env.floatOps with
    | none => simp [ha] at hv
    | some w =>
      have hw := ih w ha
      cases w with
      | int x =>
        simp only [ha, Option.some.injEq] at hv
        subst hv
        simp [Arith.ast, evalExpr, hw, Number.toValue]
      | float x =>
        simp only [ha] at hv
        cases hz : env.floatOps.neg x with
        | none => simp [hz] at hv
        | some z =>
          simp only [hz, Option.map_some', Option.some.injEq] at hv
          subst hv
          simp [Arith.ast, evalExpr, hw, Number.toValue, hz, floatResult]
  | paren a ih => exact ih v hv
  | bin op l r ihl ihr =>
    simp only [Arith.value] at hv
    cases hl : l.value env.floatOps with
    | none => simp [hl] at hv
    | some x =>
      cases hr : r.value env.floatOps with
      | none => simp [hl, hr] at hv
      | some y =>
        simp only [hl, hr] at hv
        simp only [Arith.ast, evalExpr, ihl x hl, ihr y hr]
        exact evalBin_apply env.floatOps op x y v hv

/-! ## The claims on rendering -/

theorem stringify_number (v : Number) : stringify v.toValue = .ok v.decimal := by
  cases v <;> rfl

theorem execute_actionTemplate (env : Env) (limit : Nat) (e : Expr) (v : Value) (text : String)
    (hv : evalExpr env e = .ok v) (ht : stringify v = .ok text) :
    execute [actionTemplate e] (actionTemplate e) env (limit + 1) = .ok text := by
  simp [execute, extendsChain, actionTemplate, runList, execNode, hv, ht]

/-- C6: for every arithmetic expression over integer and floating-point
literals, written with `+ - * / %`, unary minus and parentheses, whose
conventional value (with `* / %` above `+ -`, equal strength grouping to the
left, parentheses first) is defined, rendering the action that holds its
tokens yields the decimal form of that value. -/
theorem renderAction_arith (env : Env) (limit : Nat) (a : Arith) (v : Number)
    (hc : a.conventional = true) (hv : a.value env.floatOps = some v) (hlimit : 1 ≤ limit) :
    renderAction env limit a.tokens = .ok v.decimal := by
  obtain ⟨l, rfl⟩ : ∃ l, limit = l + 1 := ⟨limit - 1, by omega⟩
  simp only [renderAction, parseExpression_tokens a hc]
  exact execute_actionTemplate env l a.ast v.toValue v.decimal (evalExpr_ast env a v hv)
    (stringify_number v)

/-- The tests of `TestEvalActionNode`: `{{ 2+4*2+4 }}` renders `14`,
`{{ (1*3)%2 }}` renders `1`, `{{ (2*5)/ 3 %1 }}` renders `0`, `{{ 2+1+4-3 }}`
renders `4` and `{{ 1*1.23 }}` renders `1.23`; besides, `{{ 2+6/2 }}` renders
`5` and `{{ 2-3-4 }}` renders `-5` (C6 at these expressions). -/
theorem renderAction_arith_witness :
    renderAction testEnv 1 [.num 2, .plus, .num 4, .star, .num 2, .plus, .num 4] = .ok "14" ∧
      renderAction testEnv 1
        [.lparen, .num 1, .star, .num 3, .rparen, .percent, .num 2] = .ok "1" ∧
      renderAction testEnv 1
        [.lparen, .num 2, .star, .num 5, .rparen, .slash, .num 3, .percent, .num 1] = .ok "0" ∧
      renderAction testEnv 1
        [.num 2, .plus, .num 1, .plus, .num 4, .minus, .num 3] = .ok "4" ∧
      renderAction testEnv 1
        [.num 1, .star, .float ⟨0x3ff3ae147ae147ae, "1.23"⟩] = .ok "1.23" ∧
      renderAction testEnv 1 [.num 2, .plus, .num 6, .slash, .num 2] = .ok "5" ∧
      renderAction testEnv 1 [.num 2, .minus, .num 3, .minus, .num 4] = .ok "-5" :=
  ⟨renderAction_arith testEnv 1
      (.bin .add (.bin .add (.num 2) (.bin .mul (.num 4) (.num 2))) (.num 4)) (.int 14)
      (by decide) (by decide) (by decide),
    renderAction_arith testEnv 1
      (.bin .mod (.paren (.bin .mul (.num 1) (.num 3))) (.num 2)) (.int 1)
      (by decide) (by decide) (by decide),
    renderAction_arith testEnv 1
      (.bin .mod (.bin .div (.paren (.bin .mul (.num 2) (.num 5))) (.num 3)) (.num 1)) (.int 0)
      (by decide) (by decide) (by decide),
    renderAction_arith testEnv 1
      (.bin .sub (.bin .add (.bin .add (.num 2) (.num 1)) (.num 4)) (.num 3)) (.int 4)
      (by decide) (by decide) (by decide),
    renderAction_arith testEnv 1
      (.bin .mul (.num 1) (.float ⟨0x3ff3ae147ae147ae, "1.23"⟩))
      (.float ⟨0x3ff3ae147ae147ae, "1.23"⟩)
      (by decide) (by decide) (by decide),
    renderAction_arith testEnv 1
      (.bin .add (.num 2) (.bin .div (.num 6) (.num 2))) (.int 5)
      (by decide) (by decide) (by decide),
    (renderAction_arith testEnv 1
      (.bin .sub (.bin .sub (.num 2) (.num 3)) (.num 4)) (.int (-5))
      (by decide) (by decide) (by decide)).trans
      (congrArg Except.ok (by decide : (Number.int (-5)).decimal = "-5"))⟩

theorem selectBranch_first (env : Env) (pre post : List (Expr × List Node)) (c : Expr)
    (body : List Node) (els : Option (List Node)) (v : Value)
    (hpre : ∀ p ∈ pre, ∃ w, evalExpr env p.1 = .ok w ∧ truthy w = false)
    (hc : evalExpr env c = .ok v) (hv : truthy v = true) :
    selectBranch env (pre ++ (c, body) :: post) els = .ok (some body) := by
  induction pre with
  | nil => simp [selectBranch, hc, hv]
  | cons p pre ih =>
    obtain ⟨w, hw, hf⟩ := hpre p (List.mem_cons_self _ _)
    obtain ⟨c', body'⟩ := p
    simp only at hw
    simp only [List.cons_append, selectBranch, hw, hf]
    exact ih (fun q hq => hpre q (List.mem_cons_of_mem _ hq))

theorem selectBranch_none (env : Env) (branches : List (Expr × List Node))
    (els : Option (List Node))
    (hall : ∀ p ∈ branches, ∃ w, evalExpr env p.1 = .ok w ∧ truthy w = false) :
    selectBranch env branches els = .ok els := by
  induction branches with
  | nil => rfl
  | cons p rest ih =>
    obtain ⟨w, hw, hf⟩ := hall p (List.mem_cons_self _ _)
    obtain ⟨c', body'⟩ := p
    simp only at hw
    simp only [selectBranch, hw, hf]
    exact ih (fun q hq => hall q (List.mem_cons_of_mem _ hq))

/-- The falsy values are nil, `false`, the integer zero, the float zeros, the
empty string, the empty sequences and the empty mappings. -/
theorem truthy_eq_false_iff (v : Value) :
    truthy v = false ↔
      v = .nil ∨ v = .bool false ∨ v = .int 0 ∨
      (∃ x, v = .float x ∧ (x.bits = 0 ∨ x.bits = 2 ^ 63)) ∨ v = .str "" ∨
      (∃ tag p, v = .host .sequence tag 0 p) ∨ ∃ tag p, v = .host .mapping tag 0 p := by
  cases v with
  | nil => simp [truthy]
  | bool b => cases b <;> simp [truthy]
  | int n => simp [truthy]
  | float x =>
    simp only [truthy, Bool.and_eq_false_imp, bne_iff_ne, ne_eq, bne_eq_false_iff_eq,
      reduceCtorEq, Value.float.injEq, exists_eq_left', false_or, or_false, exists_false]
    tauto
  | str s => simp [truthy]
  | host kind tag size p =>
    cases kind <;> simp [truthy]

/-- C7: an `if` with its condition, its chain of `else if` conditions and its
optional `else` executes the body of the first branch whose condition is
truthy (the conditions before it being falsy) and nothing else; when every
condition is falsy it executes the `else` body if there is one and otherwise
leaves the output as it was.  A condition is falsy when its value is nil,
`false`, a zero number, the empty string, an empty sequence or an empty
mapping, and truthy otherwise. -/
theorem execNode_ifNode (chain : List Template) (depth : Nat) (env : Env) (cond : Expr)
    (thenBranch : List Node) (elseIfs : List (Expr × List Node))
    (elseBranch : Option (List Node)) (out : String) :
    (∀ pre c body post v, (cond, thenBranch) :: elseIfs = pre ++ (c, body) :: post →
      (∀ p ∈ pre, ∃ w, evalExpr env p.1 = .ok w ∧ truthy w = false) →
      evalExpr env c = .ok v → truthy v = true →
      execNode chain (depth + 1) env (.ifNode cond thenBranch elseIfs elseBranch) out =
        runList (execNode chain depth env) body out) ∧
    ((∀ p ∈ (cond, thenBranch) :: elseIfs, ∃ w, evalExpr env p.1 = .ok w ∧ truthy w = false) →
      (∀ body, elseBranch = some body →
        execNode chain (depth + 1) env (.ifNode cond thenBranch elseIfs elseBranch) out =
          runList (execNode chain depth env) body out) ∧
      (elseBranch = none →
        execNode chain (depth + 1) env (.ifNode cond thenBranch elseIfs elseBranch) out =
          .ok out)) ∧
    (∀ v, truthy v = false ↔
      v = .nil ∨ v = .bool false ∨ v = .int 0 ∨
      (∃ x, v = .float x ∧ (x.bits = 0 ∨ x.bits = 2 ^ 63)) ∨ v = .str "" ∨
      (∃ tag p, v = .host .sequence tag 0 p) ∨ ∃ tag p, v = .host .mapping tag 0 p) := by
  refine ⟨?_, ?_, truthy_eq_false_iff⟩
  · intro pre c body post v hsplit hpre hc hv
    simp only [execNode]
    rw [hsplit, selectBranch_first env pre post c body elseBranch v hpre hc hv]
  · intro hall
    constructor
    · intro body hbody
      simp only [execNode]
      rw [selectBranch_none env _ elseBranch hall, hbody]
    · intro hnone
      simp only [execNode]
      rw [selectBranch_none env _ elseBranch hall, hnone]

/-- The tests `{{if false}}hello{{else if false}}world{{else}}buddy{{end}}` and
`{{if false}}hello{{else if true}}world{{end}}` render `buddy` and `world`;
with an empty slice `xs`, `{{if xs}}A{{else}}B{{end}}` renders `B`; with a
slice `ys` of two elements, `{{if ys}}A{{else}}B{{end}}` renders `A`; and
`{{if fzero}}A{{else if m}}B{{else if zero}}C{{end}}` renders nothing (C7 at
these constructs). -/
theorem execNode_ifNode_witness :
    execNode [] 2 conditionEnv
        (.ifNode (.lit (.bool false)) [.text "hello"]
          [(.lit (.bool false), [.text "world"])] (some [.text "buddy"])) "" = .ok "buddy" ∧
      execNode [] 2 conditionEnv
        (.ifNode (.lit (.bool false)) [.text "hello"]
          [(.lit (.bool true), [.text "world"])] none) "" = .ok "world" ∧
      execNode [] 2 conditionEnv
        (.ifNode (.ident "xs") [.text "A"] [] (some [.text "B"])) "" = .ok "B" ∧
      execNode [] 2 conditionEnv
        (.ifNode (.ident "ys") [.text "A"] [] (some [.text "B"])) "" = .ok "A" ∧
      execNode [] 2 conditionEnv
        (.ifNode (.ident "fzero") [.text "A"]
          [(.ident "m", [.text "B"]), (.ident "zero", [.text "C"])] none) "" = .ok "" := by
  refine ⟨?_, ?_, ?_, ?_, ?_⟩
  · refine (((execNode_ifNode [] 1 conditionEnv (.lit (.bool false))
      [.text "hello"] [(.lit (.bool false), [.text "world"])] (some [.text "buddy"]) "").2.1
      ?_).1 [.text "buddy"] rfl).trans ?_
    · intro p hp
      simp only [List.mem_cons, List.mem_singleton, List.not_mem_nil, or_false] at hp
      rcases hp with rfl | rfl <;> exact ⟨.bool false, rfl, rfl⟩
    · rfl
  · refine ((execNode_ifNode [] 1 conditionEnv (.lit (.bool false))
      [.text "hello"] [(.lit (.bool true), [.text "world"])] none "").1
      [(.lit (.bool false), [.text "hello"])] (.lit (.bool true)) [.text "world"] []
      (.bool true) rfl ?_ rfl rfl).trans ?_
    · intro p hp
      simp only [List.mem_singleton] at hp
      subst hp
      exact ⟨.bool false, rfl, rfl⟩
    · rfl
  · refine (((execNode_ifNode [] 1 conditionEnv (.ident "xs") [.text "A"] []
      (some [.text "B"]) "").2.1 ?_).1 [.text "B"] rfl).trans ?_
    · intro p hp
      simp only [List.mem_singleton] at hp
      subst hp
      exact ⟨.host .sequence 1 0 (.text "[]"), by decide, rfl⟩
    · rfl
  · refine ((execNode_ifNode [] 1 conditionEnv (.ident "ys") [.text "A"] []
      (some [.text "B"]) "").1 [] (.ident "ys") [.text "A"] []
      (.host .sequence 2 2 (.text "[1 2]")) rfl ?_ (by decide) rfl).trans ?_
    · intro p hp
      simp at hp
    · rfl
  · refine ((execNode_ifNode [] 1 conditionEnv (.ident "fzero") [.text "A"]
      [(.ident "m", [.text "B"]), (.ident "zero", [.text "C"])] none "").2.1 ?_).2 rfl
    intro p hp
    simp only [List.mem_cons, List.mem_singleton, List.not_mem_nil, or_false] at hp
    rcases hp with rfl | rfl | rfl
    · exact ⟨.float ⟨0, "0"⟩, by decide, rfl⟩
    · exact ⟨.host .mapping 3 0 (.text "map[]"), by decide, rfl⟩
    · exact ⟨.int 0, by decide, rfl⟩

theorem extendsChain_child (set : TemplateSet) (child base : Template)
    (hparent : child.parent = some base.name) (hbase : getTemplate set base.name = some base)
    (hroot : base.parent = none) (hne : base.name ≠ child.name) :
    extendsChain set (set.length + 1) [] child = .ok [child, base] := by
  have hlen : 1 ≤ set.length := by
    cases set with
    | nil => simp [getTemplate] at hbase
    | cons t rest => simp
  obtain ⟨n, hn⟩ : ∃ n, set.length = n + 1 := ⟨set.length - 1, by omega⟩
  rw [hn]
  simp [extendsChain, hparent, hbase, hroot, hne]

/-- C8: when a template `child` extends a registered base template, rendering
`child` executes the top level of the base, and there every block that
`child` defines is executed with the body `child` gives it, both at a `block`
node of that name (whatever body the node itself carries) and at a `yield` of
that name. -/
theorem execute_extends_overrides (set : TemplateSet) (child base : Template) (env : Env)
    (limit : Nat) (hparent : child.parent = some base.name)
    (hbase : getTemplate set base.name = some base) (hroot : base.parent = none)
    (hne : base.name ≠ child.name) :
    execute set child env limit = runList (execNode [child, base] limit env) base.root "" ∧
      ∀ name blk, child.blocks.lookup name = some blk → ∀ depth env' out,
        (∀ arg body v, evalExpr env' arg = .ok v →
          execNode [child, base] (depth + 1) env' (.block name (some arg) body) out =
            runList (execNode [child, base] depth { env' with context := v }) blk.body out) ∧
        (∀ body,
          execNode [child, base] (depth + 1) env' (.block name none body) out =
            runList (execNode [child, base] depth env') blk.body out) ∧
        (∀ arg v, evalExpr env' arg = .ok v →
          execNode [child, base] (depth + 1) env' (.yield name arg) out =
            runList (execNode [child, base] depth { env' with context := v }) blk.body out) := by
  constructor
  · simp [execute, extendsChain_child set child base hparent hbase hroot hne]
  · intro name blk hblk depth env' out
    have hlook : lookupBlock [child, base] name = some blk := by
      simp [lookupBlock, hblk]
    refine ⟨?_, ?_, ?_⟩
    · intro arg body v hv
      simp [execNode, hlook, hv]
    · intro body
      simp [execNode, hlook]
    · intro arg v hv
      simp [execNode, hlook, hv]

/-- The test `Block_Extends` renders `Hey Buddy,Hey José Santos`, where
`Block_simple` alone renders `Hello Buddy,Hello José Santos` (C8 at the
templates of the test). -/
theorem execute_extends_overrides_witness :
    execute [blockSimple, blockExtends] blockExtends testEnv 4 =
        .ok "Hey Buddy,Hey José Santos" ∧
      execute [blockSimple, blockExtends] blockSimple testEnv 4 =
        .ok "Hello Buddy,Hello José Santos" := by
  constructor
  · exact (execute_extends_overrides [blockSimple, blockExtends] blockExtends blockSimple
      testEnv 4 rfl rfl rfl (by decide)).1.trans (by decide)
  · decide

/-! ## Size of the map and order of the pairs -/

theorem pairsOf_length : ∀ values : List Value, (pairsOf values).length = values.length / 2
  | [] => by simp [pairsOf]
  | [_] => by simp [pairsOf]
  | _ :: _ :: rest => by
    simp only [pairsOf, List.length_cons, pairsOf_length rest]
    omega

theorem pairsOf_flattenPairs (ps : List (Value × Value)) : pairsOf (flattenPairs ps) = ps := by
  induction ps with
  | nil => rfl
  | cons p ps ih =>
    obtain ⟨k, v⟩ := p
    simp [flattenPairs, pairsOf, ih]

theorem flattenPairs_length (ps : List (Value × Value)) :
    (flattenPairs ps).length = 2 * ps.length := by
  induction ps with
  | nil => rfl
  | cons p ps ih =>
    obtain ⟨k, v⟩ := p
    simp only [flattenPairs, List.length_cons, ih]
    omega

theorem pairKeys_getElem? (values : List Value) (i : Nat) (k v : Value)
    (hk : values[2 * i]? = some k) (hv : values[2 * i + 1]? = some v) :
    (pairKeys values)[i]? = some (keyText k) := by
  simp [pairKeys, List.getElem?_map, (pairsOf_getElem? values i k v).mpr ⟨hk, hv⟩]

/-- The keys have pairwise different string forms exactly when `pairKeys` has
no repetition. -/
theorem pairKeys_nodup_iff (values : List Value) (heven : values.length % 2 = 0) :
    (pairKeys values).Nodup ↔
      ∀ i j k k', values[2 * i]? = some k → values[2 * j]? = some k' →
        keyText k = keyText k' → i = j := by
  rw [List.nodup_iff_getElem?_ne_getElem?]
  constructor
  · intro h i j k k' hk hk' heq
    obtain ⟨v, hv⟩ := value_after_key values heven i k hk
    obtain ⟨v', hv'⟩ := value_after_key values heven j k' hk'
    have hi := pairKeys_getElem? values i k v hk hv
    have hj := pairKeys_getElem? values j k' v' hk' hv'
    have hli : i < (pairKeys values).length := (List.getElem?_eq_some.mp hi).1
    have hlj : j < (pairKeys values).length := (List.getElem?_eq_some.mp hj).1
    by_contra hne
    rcases Nat.lt_or_gt_of_ne hne with hlt | hlt
    · exact h i j hlt hlj (by rw [hi, hj, heq])
    · exact h j i hlt hli (by rw [hi, hj, heq])
  · intro h i j hij hj heq
    have hlen : (pairKeys values).length = (pairsOf values).length := by simp [pairKeys]
    have hi' : i < (pairsOf values).length := by omega
    have hj' : j < (pairsOf values).length := by omega
    have hpi : (pairsOf values)[i]? = some ((pairsOf values).get ⟨i, hi'⟩) :=
      List.getElem?_eq_getElem hi'
    have hpj : (pairsOf values)[j]? = some ((pairsOf values).get ⟨j, hj'⟩) :=
      List.getElem?_eq_getElem hj'
    have hvi := (pairsOf_getElem? values i _ _).mp hpi
    have hvj := (pairsOf_getElem? values j _ _).mp hpj
    simp only [pairKeys, List.getElem?_map, hpi, hpj, Option.map_some', Option.some.injEq] at heq
    have := h i j _ _ hvi.1 hvj.1 heq
    omega

/-- For keys that print, pairwise different string forms are pairwise
different results of `fmt.Sprint`. -/
theorem distinct_iff_keyText (values : List Value)
    (hprint : ∀ i k, values[2 * i]? = some k → ∃ s, Sprint k = .ok s) :
    (∀ i j k k', values[2 * i]? = some k → values[2 * j]? = some k' →
        keyText k = keyText k' → i = j) ↔
      ∀ i j k k' s, values[2 * i]? = some k → values[2 * j]? = some k' →
        Sprint k = .ok s → Sprint k' = .ok s → i = j := by
  constructor
  · intro h i j k k' s hk hk' hs hs'
    exact h i j k k' hk hk' ((keyText_of_Sprint hs).trans (keyText_of_Sprint hs').symm)
  · exact keyText_injective_of_distinct values hprint

/-- The map built from nothing has one entry for each different key string. -/
theorem storeAll_make_length (ps : List (Value × Value)) :
    (storeAll GoMap.make ps).length = (ps.map (fun p => keyText p.1)).dedup.length := by
  have hnodup : (storeAll GoMap.make ps).keys.Nodup :=
    storeAll_nodup_keys _ _ (by simp [GoMap.make, GoMap.keys])
  have hset : (storeAll GoMap.make ps).keys.toFinset =
      (ps.map (fun p => keyText p.1)).toFinset := by
    apply List.toFinset.ext
    intro s
    rw [storeAll_mem_keys]
    simp [GoMap.make, GoMap.keys]
  have hlen : (storeAll GoMap.make ps).length = (storeAll GoMap.make ps).keys.length := by
    simp [GoMap.keys]
  rw [hlen, ← List.toFinset_card_of_nodup hnodup, hset, List.card_toFinset]

/-- C11: for an even-length argument list whose keys have string forms, the
map returned by `newMap` has at most `len(values) / 2` entries, and exactly
that many if and only if the arguments at positions `0, 2, 4, ...` print
pairwise differently. -/
theorem newMap_len_le_half (values : List Value) (heven : values.length % 2 = 0)
    (hprint : ∀ i k, values[2 * i]? = some k → ∃ s, Sprint k = .ok s) :
    ∃ m, newMap values = .ok m ∧ m.len ≤ values.length / 2 ∧
      (m.len = values.length / 2 ↔
        ∀ i j k k' s, values[2 * i]? = some k → values[2 * j]? = some k' →
          Sprint k = .ok s → Sprint k' = .ok s → i = j) := by
  refine ⟨_, newMap_of_even values heven hprint, ?_, ?_⟩
  · have hsub := (List.dedup_sublist (pairKeys values)).length_le
    have hlen : (pairKeys values).length = values.length / 2 := by
      simp [pairKeys, pairsOf_length]
    rw [GoMap.len, storeAll_make_length]
    exact hlen ▸ hsub
  · have hlen : (pairKeys values).length = values.length / 2 := by
      simp [pairKeys, pairsOf_length]
    rw [← distinct_iff_keyText values hprint, ← pairKeys_nodup_iff values heven, GoMap.len,
      storeAll_make_length, ← hlen]
    constructor
    · intro h
      exact List.dedup_eq_self.mp ((List.dedup_sublist (pairKeys values)).eq_of_length h)
    · intro h
      exact congrArg List.length (List.dedup_eq_self.mpr h)

/-- In `map(1,"a","1","b")` every key prints. -/
theorem printable_keys_1_1 :
    ∀ i k, [Value.int 1, .str "a", .str "1", .str "b"][2 * i]? = some k →
      ∃ s, Sprint k = .ok s := by
  intro i k hi
  rcases i with _ | _ | i
  · simp only [Nat.mul_zero, List.getElem?_cons_zero, Option.some.injEq] at hi
    exact ⟨"1", by rw [← hi]; decide⟩
  · simp only [Nat.mul_one, List.getElem?_cons_succ, List.getElem?_cons_zero,
      Option.some.injEq] at hi
    exact ⟨"1", by rw [← hi]; rfl⟩
  · simp [Nat.mul_succ] at hi

/-- In `map("x",1,"y",2)` every key prints. -/
theorem printable_keys_x_y :
    ∀ i k, [Value.str "x", .int 1, .str "y", .int 2][2 * i]? = some k →
      ∃ s, Sprint k = .ok s := by
  intro i k hi
  rcases i with _ | _ | i
  · simp only [Nat.mul_zero, List.getElem?_cons_zero, Option.some.injEq] at hi
    exact ⟨"x", by rw [← hi]; rfl⟩
  · simp only [Nat.mul_one, List.getElem?_cons_succ, List.getElem?_cons_zero,
      Option.some.injEq] at hi
    exact ⟨"y", by rw [← hi]; rfl⟩
  · simp [Nat.mul_succ] at hi

/-- In `map("x",1,"y",2)` the two keys print differently. -/
theorem distinct_keys_x_y :
    ∀ i j k k' s, [Value.str "x", .int 1, .str "y", .int 2][2 * i]? = some k →
      [Value.str "x", .int 1, .str "y", .int 2][2 * j]? = some k' →
      Sprint k = .ok s → Sprint k' = .ok s → i = j := by
  intro i j k k' s hi hj hs hs'
  have heq : Sprint k = Sprint k' := hs.trans hs'.symm
  rcases i with _ | _ | i
  · rcases j with _ | _ | j
    · rfl
    · simp at hi hj
      subst hi hj
      exact absurd heq (by decide)
    · simp [Nat.mul_succ] at hj
  · rcases j with _ | _ | j
    · simp at hi hj
      subst hi hj
      exact absurd heq (by decide)
    · rfl
    · simp [Nat.mul_succ] at hj
  · simp [Nat.mul_succ] at hi

/-- The calls `map(1,"a","1","b")` and `map("x",1,"y",2)`: two pairs each, one
entry where the keys print alike and two where they do not (C11 at two pairs). -/
theorem newMap_len_le_half_witness :
    (∃ m, newMap [.int 1, .str "a", .str "1", .str "b"] = .ok m ∧ m.len = 1) ∧
      ∃ m, newMap [.str "x", .int 1, .str "y", .int 2] = .ok m ∧ m.len = 2 := by
  constructor
  · obtain ⟨m, hm, _, _⟩ := newMap_len_le_half [.int 1, .str "a", .str "1", .str "b"]
      (by decide) printable_keys_1_1
    refine ⟨m, hm, ?_⟩
    have h2 : newMap [.int 1, .str "a", .str "1", .str "b"] = .ok [("1", .str "b")] := by decide
    rw [h2] at hm
    cases hm
    rfl
  · obtain ⟨m, hm, _, hiff⟩ :=
      newMap_len_le_half [.str "x", .int 1, .str "y", .int 2] (by decide) printable_keys_x_y
    exact ⟨m, hm, hiff.mpr distinct_keys_x_y⟩

theorem storeAll_get?_of_mem (m : GoMap) (ps : List (Value × Value)) (k v : Value)
    (hnodup : (ps.map (fun p => keyText p.1)).Nodup) (hmem : (k, v) ∈ ps) :
    (storeAll m ps).get? (keyText k) = some v := by
  obtain ⟨before, after, rfl⟩ := List.append_of_mem hmem
  apply storeAll_get?_last
  intro p hp heq
  rw [List.map_append, List.map_cons] at hnodup
  have hcons := (List.nodup_append.mp hnodup).2.1
  have hnot := (List.nodup_cons.mp hcons).1
  exact hnot (heq ▸ List.mem_map_of_mem (fun p => keyText p.1) hp)

theorem storeAll_get?_none (ps : List (Value × Value)) (s : String)
    (h : ∀ p ∈ ps, keyText p.1 ≠ s) : (storeAll GoMap.make ps).get? s = none := by
  rw [storeAll_get?_of_absent _ _ _ h]
  rfl

/-- With keys of pairwise different string forms, the lookups of the map do
not depend on the order in which the pairs are stored. -/
theorem storeAll_get?_perm (ps qs : List (Value × Value)) (hperm : qs.Perm ps)
    (hnodup : (ps.map (fun p => keyText p.1)).Nodup) (s : String) :
    (storeAll GoMap.make qs).get? s = (storeAll GoMap.make ps).get? s := by
  have hnodup' : (qs.map (fun p => keyText p.1)).Nodup :=
    (hperm.map _).nodup_iff.mpr hnodup
  by_cases hs : ∃ p ∈ ps, keyText p.1 = s
  · obtain ⟨⟨k, v⟩, hp, rfl⟩ := hs
    rw [storeAll_get?_of_mem _ ps k v hnodup hp,
      storeAll_get?_of_mem _ qs k v hnodup' (hperm.mem_iff.mpr hp)]
  · have hps : ∀ p ∈ ps, keyText p.1 ≠ s := fun p hp heq => hs ⟨p, hp, heq⟩
    have hqs : ∀ p ∈ qs, keyText p.1 ≠ s := fun p hp => hps p (hperm.mem_iff.mp hp)
    rw [storeAll_get?_none ps s hps, storeAll_get?_none qs s hqs]

theorem GoMap.mem_iff_get? (m : GoMap) (hnodup : m.keys.Nodup) (k : String) (v : Value) :
    (k, v) ∈ m ↔ m.get? k = some v := by
  induction m with
  | nil => simp [GoMap.get?]
  | cons e rest ih =>
    obtain ⟨k', v'⟩ := e
    have hrest : (GoMap.keys rest).Nodup := (List.nodup_cons.mp hnodup).2
    have hk' : k' ∉ GoMap.keys rest := (List.nodup_cons.mp hnodup).1
    by_cases hk : k' = k
    · subst hk
      have hnot : (k', v) ∉ rest := fun h => hk' (List.mem_map_of_mem Prod.fst h)
      simp only [GoMap.get?, if_true, List.mem_cons, Prod.mk.injEq, true_and, Option.some.injEq]
      constructor
      · rintro (h | h)
        · exact h.symm
        · exact absurd h hnot
      · intro h
        exact Or.inl h.symm
    · simp only [GoMap.get?, hk, if_false, List.mem_cons, Prod.mk.injEq, ← ih hrest]
      constructor
      · rintro (h | h)
        · exact absurd h.1.symm hk
        · exact h
      · exact Or.inr

theorem GoMap.perm_of_get?_eq (m m' : GoMap) (h : m.keys.Nodup) (h' : m'.keys.Nodup)
    (heq : ∀ s, m'.get? s = m.get? s) : m'.Perm m := by
  apply (List.perm_ext_iff_of_nodup (List.Nodup.of_map _ h') (List.Nodup.of_map _ h)).mpr
  rintro ⟨k, v⟩
  rw [GoMap.mem_iff_get? m' h', GoMap.mem_iff_get? m h, heq]

/-- C12: for an even-length argument list whose keys have string forms,
pairwise distinct, `newMap` applied to the same key/value pairs in any other
order returns an equal map: every lookup gives the same result, and the
entries are the same up to order. -/
theorem newMap_pair_order_irrelevant (values : List Value) (heven : values.length % 2 = 0)
    (hprint : ∀ i k, values[2 * i]? = some k → ∃ s, Sprint k = .ok s)
    (hdist : ∀ i j k k' s, values[2 * i]? = some k → values[2 * j]? = some k' →
      Sprint k = .ok s → Sprint k' = .ok s → i = j)
    (ps : List (Value × Value)) (hperm : ps.Perm (pairsOf values)) :
    ∃ m m', newMap values = .ok m ∧ newMap (flattenPairs ps) = .ok m' ∧
      (∀ s, m'.get? s = m.get? s) ∧ m'.Perm m ∧ m'.len = m.len := by
  have heven' : (flattenPairs ps).length % 2 = 0 := by
    rw [flattenPairs_length]
    omega
  have hprint' : ∀ i k, (flattenPairs ps)[2 * i]? = some k → ∃ s, Sprint k = .ok s := by
    intro i k hk
    obtain ⟨v, hv⟩ := value_after_key _ heven' i k hk
    have hmem : (k, v) ∈ pairsOf (flattenPairs ps) :=
      (mem_pairsOf_iff _ (k, v)).mpr ⟨i, hk, hv⟩
    rw [pairsOf_flattenPairs] at hmem
    exact printable_pairs values hprint (k, v) (hperm.mem_iff.mp hmem)
  have hnodup : ((pairsOf values).map (fun p => keyText p.1)).Nodup :=
    (pairKeys_nodup_iff values heven).mpr ((distinct_iff_keyText values hprint).mpr hdist)
  have hget : ∀ s, (storeAll GoMap.make (pairsOf (flattenPairs ps))).get? s =
      (storeAll GoMap.make (pairsOf values)).get? s := by
    intro s
    rw [pairsOf_flattenPairs]
    exact storeAll_get?_perm _ _ hperm hnodup s
  have hp := GoMap.perm_of_get?_eq _ _
    (storeAll_nodup_keys GoMap.make (pairsOf values) (by simp [GoMap.make, GoMap.keys]))
    (storeAll_nodup_keys GoMap.make (pairsOf (flattenPairs ps))
      (by simp [GoMap.make, GoMap.keys])) hget
  exact ⟨_, _, newMap_of_even values heven hprint, newMap_of_even _ heven' hprint', hget, hp,
    hp.length_eq⟩

/-- The calls `map("x",1,"y",2)` and `map("y",2,"x",1)` return equal maps (C12
at two pairs, swapped). -/
theorem newMap_pair_order_irrelevant_witness :
    ∃ m m', newMap [.str "x", .int 1, .str "y", .int 2] = .ok m ∧
      newMap [.str "y", .int 2, .str "x", .int 1] = .ok m' ∧
      (∀ s, m'.get? s = m.get? s) ∧ m'.Perm m ∧ m'.len = m.len :=
  newMap_pair_order_irrelevant [.str "x", .int 1, .str "y", .int 2] (by decide)
    printable_keys_x_y distinct_keys_x_y
    [(.str "y", .int 2), (.str "x", .int 1)] (List.Perm.swap _ _ _)

/-- C13: called with no arguments, `newMap` returns without running its loop
body, and the map it returns is empty: it has no entry and every lookup
misses. -/
theorem newMap_no_arguments :
    ∃ m, newMap [] = .ok m ∧ m.len = 0 ∧ m.keys = [] ∧ (∀ s, m.get? s = none) ∧
      ∃ st, newMapRun [] = .ok st ∧ st.nmap = m ∧ st.visited = [] :=
  ⟨GoMap.make, rfl, rfl, rfl, fun _ => rfl, ⟨0, GoMap.make, []⟩, rfl, rfl, rfl⟩

end Jet
